import Mathlib

set_option linter.unusedVariables false

/-!
Verification of the snowflake-cli-package core against its specification.

The development shallowly embeds the two core components of the repository:

* `version_utils.py` — alphanumeric version keys (`get_alphanum_key`,
  `alphanum_convert`), sorting (`sorted_alphanumeric`), maximum
  (`max_alphanumeric`) and `increment_version`;
* `manager.py` — the `PackageManager` operations `list_versions`,
  `list_packages`, `get_max_version`, `version_exists`, `push` (with its
  recursive deepest-first directory drain `_put_directory_recursive` and
  `_find_deepest_directories`) and `pull` (with `_get_directory_recursive`).

Python strings are modelled as Lean `String`/`List Char` (ASCII fragment);
Python `int` as `Nat` (version digit runs are non-negative); `None` as
`Option`; raised exceptions as explicit error codes; the Snowflake stage
collaborator (`StageManager`) as explicit parameters carrying the outcome of
its listing / download calls, plus an explicit trace of the calls `push`
issues.  The local filesystem is modelled as a finite, prefix-closed set of
directory paths together with the files contained in each directory.
-/

namespace SnowPkg

/-! ## version_utils.py -/

/-- One element of the composite sort key produced by `get_alphanum_key`:
a Python `int` (for a digit run) or a Python `str` (for a non-digit
segment).  Strings are carried as `List Char`. -/
inductive KeyElem where
  | str (s : List Char)
  | num (n : Nat)
deriving DecidableEq, Repr

/-- Decimal value of a list of digit characters, as computed by Python
`int(text)` on a digit-only string (leading zeros allowed). -/
def natOfDigits (l : List Char) : Nat :=
  l.foldl (fun n c => 10 * n + (c.toNat - 48)) 0

/-- Embedding of `re.split("([0-9]+)", s)`: splits a string into the
alternating list of non-digit segments and maximal digit runs, keeping the
(possibly empty) non-digit text before, between and after the runs.  The
result always starts and ends with a (possibly empty) non-digit segment. -/
def splitRuns : List Char → List (List Char)
  | [] => [[]]
  | c :: rest =>
    match splitRuns rest with
    | [] => [[]]
    | n0 :: tail =>
      if c.isDigit then
        match n0, tail with
        | [], d1 :: tl2 => [] :: (c :: d1) :: tl2
        | _, _ => [] :: [c] :: n0 :: tail
      else (c :: n0) :: tail

/-- Embedding of `alphanum_convert`: a segment that satisfies Python
`str.isdigit()` (non-empty, all digits) becomes an `int`; any other segment
is lowercased and kept as a string. -/
def alphanum_convert (t : List Char) : KeyElem :=
  if !t.isEmpty && t.all Char.isDigit then .num (natOfDigits t)
  else .str (t.map Char.toLower)

/-- Embedding of `get_alphanum_key`.  The Python argument type is
`str | int | None`; the manager only ever passes strings or `None`, which we
model as `Option String`.  Empty or `None` input maps to the empty key. -/
def get_alphanum_key (key : Option String) : List KeyElem :=
  match key with
  | none => []
  | some s => if s = "" then [] else (splitRuns s.data).map alphanum_convert

/-- Three-way comparison on `Nat` (Python `int` comparison). -/
def cmpNat (a b : Nat) : Ordering :=
  if a < b then .lt else if a = b then .eq else .gt

/-- Three-way lexicographic comparison on `List Char` (Python `str`
comparison for the ASCII fragment). -/
def cmpChars : List Char → List Char → Ordering
  | [], [] => .eq
  | [], _ :: _ => .lt
  | _ :: _, [] => .gt
  | a :: as_, b :: bs =>
    if a < b then .lt else if b < a then .gt else cmpChars as_ bs

/-- Comparison of two key elements.  Python compares `int` with `int` and
`str` with `str`; comparing an `int` element against a `str` element raises
`TypeError`, modelled as `none`. -/
def cmpElem : KeyElem → KeyElem → Option Ordering
  | .str a, .str b => some (cmpChars a b)
  | .num a, .num b => some (cmpNat a b)
  | _, _ => none

/-- Python list (sequence) comparison of two keys: lexicographic, with a
strict prefix comparing less; fails (`none`) as soon as two elements of
different types would have to be compared. -/
def cmpKey : List KeyElem → List KeyElem → Option Ordering
  | [], [] => some .eq
  | [], _ :: _ => some .lt
  | _ :: _, [] => some .gt
  | a :: as_, b :: bs =>
    match cmpElem a b with
    | none => none
    | some .eq => cmpKey as_ bs
    | some o => some o

/-- Comparison of two version strings by their derived keys. -/
def cmpStrK (a b : String) : Option Ordering :=
  cmpKey (get_alphanum_key (some a)) (get_alphanum_key (some b))

/-- Stable insertion of `a` into a list already sorted by the derived key:
`a` is placed before the first element not strictly below it, matching the
stability of Python `sorted`. -/
def insertAlnum (a : String) : List String → List String
  | [] => [a]
  | b :: bs =>
    if cmpStrK b a = some Ordering.lt then b :: insertAlnum a bs
    else a :: b :: bs

/-- Embedding of `sorted_alphanumeric`: Python `sorted(data,
key=get_alphanum_key)`, modelled as a stable insertion sort by the derived
key. -/
def sorted_alphanumeric : List String → List String
  | [] => []
  | a :: as_ => insertAlnum a (sorted_alphanumeric as_)

/-- Valid entries of `max_alphanumeric`: the Python comprehension
`[v for v in versions if v is not None and v != ""]`. -/
def validOf (versions : List (Option String)) : List String :=
  (versions.filterMap id).filter (fun v => v ≠ "")

/-- One step of the left-to-right scan of Python `max(...,
key=get_alphanum_key)`: the current best is replaced only when the new
element's key compares strictly greater. -/
def maxStep (best v : String) : String :=
  if cmpStrK v best = some Ordering.gt then v else best

/-- Embedding of `max_alphanumeric`.  Python `max(valid,
key=get_alphanum_key)` scans left to right and replaces the current best
only when the new key compares strictly greater, hence keeps the first
maximal element. -/
def max_alphanumeric (versions : List (Option String)) : Option String :=
  match validOf versions with
  | [] => none
  | x :: xs => some (xs.foldl maxStep x)

/-- Python `parts[i].isdigit()` on a segment produced by the splitter. -/
def isDigitSeg (p : List Char) : Bool :=
  !p.isEmpty && p.all Char.isDigit

/-- The backwards scan of `increment_version`: finds the last digit-run
segment of the split, increments its integer value and re-renders it in
decimal; `none` when no segment is a digit run. -/
def incLast : List (List Char) → Option (List (List Char))
  | [] => none
  | p :: rest =>
    match incLast rest with
    | some r => some (p :: r)
    | none =>
      if isDigitSeg p then
        some (Nat.toDigits 10 (natOfDigits p + 1) :: rest)
      else none

/-- Embedding of `increment_version`: split on digit runs, increment the
last digit run (if any) and re-join. -/
def increment_version (version : String) : String :=
  match incLast (splitRuns version.data) with
  | some parts2 => String.mk parts2.flatten
  | none => String.mk (splitRuns version.data).flatten

/-- A segment containing no decimal digit (a non-digit segment of the
split). -/
def nonDigitSeg (p : List Char) : Bool := p.all (fun c => !c.isDigit)

/-- Specification predicate for the shape of the splitter output after the
leading segment: alternating digit runs (`b = true` expects a digit run
next) and non-digit segments, where every non-digit segment that is
followed by a further digit run is non-empty (digit runs are maximal) and
only the final non-digit segment may be empty. -/
def segsOk : Bool → List (List Char) → Bool
  | _, [] => true
  | true, d :: rest => isDigitSeg d && segsOk false rest
  | false, [n] => nonDigitSeg n
  | false, n :: rest => nonDigitSeg n && !n.isEmpty && segsOk true rest

/-- Specification predicate for the full splitter output: a (possibly
empty) non-digit segment followed by an alternation starting with a digit
run. -/
def splitOk : List (List Char) → Bool
  | [] => false
  | n0 :: rest => nonDigitSeg n0 && segsOk true rest

/-- Whether a key element is an integer element. -/
def KeyElem.isNum : KeyElem → Bool
  | .num _ => true
  | .str _ => false

/-- Shape predicate for derived keys: elements strictly alternate between
string elements (even positions, `b = false`) and integer elements (odd
positions, `b = true`). -/
def keyOk : Bool → List KeyElem → Bool
  | _, [] => true
  | true, .num _ :: r => keyOk false r
  | false, .str _ :: r => keyOk true r
  | _, _ => false

/-! ## manager.py — listing, version resolution -/

/-- One record returned by the collaborator listing call
(`StageManager.list_files(...).fetchall()`); the manager reads only the
`"name"` field. -/
structure FileInfo where
  name : String
deriving DecidableEq, Repr

/-- Python `pat in s` / `s.split(pat, 1)[-1]` combined: the suffix of `s`
after the first occurrence of `pat`, or `none` when `pat` does not occur. -/
def afterFirst (pat : List Char) : List Char → Option (List Char)
  | [] => if pat.isPrefixOf [] then some [] else none
  | c :: tl =>
    if pat.isPrefixOf (c :: tl) then some ((c :: tl).drop pat.length)
    else afterFirst pat tl

/-- Split a character list on a separator character (Python `str.split`). -/
def splitOnChar (sep : Char) : List Char → List (List Char)
  | [] => [[]]
  | c :: rest =>
    let r := splitOnChar sep rest
    if c = sep then [] :: r
    else
      match r with
      | [] => [[c]]
      | h :: t => (c :: h) :: t

/-- Embedding of `PurePosixPath(s).parts`: the non-empty slash-separated
segments, with a leading `"/"` part for an absolute path. -/
def pathParts (s : List Char) : List (List Char) :=
  let segs := (splitOnChar '/' s).filter (fun x => !x.isEmpty)
  match s with
  | '/' :: _ => ['/'] :: segs
  | _ => segs

/-- Model of accumulation into the Python `set` followed by listing it:
first-seen order, deduplicated (the set order is irrelevant after the final
sort). -/
def addUnique (l : List String) (x : String) : List String :=
  if x ∈ l then l else l ++ [x]

/-- The version-extraction loop of `list_versions`: for every record whose
name contains `packages/<package_name>/`, take the first path segment after
that marker. -/
def extractVersions (files : List FileInfo) (package_name : String) :
    List String :=
  files.foldl (fun acc fi =>
    match afterFirst ("packages/" ++ package_name ++ "/").data fi.name.data with
    | none => acc
    | some rel =>
      match (pathParts rel).head? with
      | some part => addUnique acc (String.mk part)
      | none => acc) []

/-- Embedding of `PackageManager.list_versions`.  The collaborator listing
outcome is passed explicitly: an exception from the listing call is caught
and degraded to the empty list. -/
def list_versions (listing : Except String (List FileInfo))
    (stage package_name : String) : List String :=
  match listing with
  | .error _ => []
  | .ok files => sorted_alphanumeric (extractVersions files package_name)

/-- The package-extraction loop of `list_packages`: first path segment after
`packages/`. -/
def extractPackages (files : List FileInfo) : List String :=
  files.foldl (fun acc fi =>
    match afterFirst "packages/".data fi.name.data with
    | none => acc
    | some rel =>
      match (pathParts rel).head? with
      | some part => addUnique acc (String.mk part)
      | none => acc) []

/-- Stable insertion for plain lexicographic string sort (Python
`sorted`). -/
def insertStrLe (a : String) : List String → List String
  | [] => [a]
  | b :: bs => if b < a then b :: insertStrLe a bs else a :: b :: bs

/-- Plain lexicographic string sort (Python `sorted` with default key). -/
def sortStrings : List String → List String
  | [] => []
  | a :: as_ => insertStrLe a (sortStrings as_)

/-- Embedding of `PackageManager.list_packages`: lexicographically sorted
deduplicated package names; a listing exception degrades to the empty
list. -/
def list_packages (listing : Except String (List FileInfo))
    (stage : String) : List String :=
  match listing with
  | .error _ => []
  | .ok files => sortStrings (extractPackages files)

/-- Embedding of `PackageManager.get_max_version`. -/
def get_max_version (listing : Except String (List FileInfo))
    (stage package_name : String) : Option String :=
  max_alphanumeric ((list_versions listing stage package_name).map some)

/-- Embedding of `PackageManager.version_exists`. -/
def version_exists (listing : Except String (List FileInfo))
    (stage package_name version : String) : Bool :=
  (list_versions listing stage package_name).contains version

/-- The user-facing fatal error taxonomy of the spec; each constructor
corresponds to one `CliError` raise site in `manager.py`. -/
inductive CliErr where
  | pathNotFound
  | notADirectory
  | versionImmutable
  | versionNotFound
  | noVersionsFound
deriving DecidableEq, Repr

instance {ε α : Type} [DecidableEq ε] [DecidableEq α] :
    DecidableEq (Except ε α) := fun a b =>
  match a, b with
  | .ok x, .ok y =>
    if h : x = y then .isTrue (by rw [h]) else .isFalse (by simp [h])
  | .error x, .error y =>
    if h : x = y then .isTrue (by rw [h]) else .isFalse (by simp [h])
  | .ok _, .error _ => .isFalse (by simp)
  | .error _, .ok _ => .isFalse (by simp)

/-- Python `str.lower()` (ASCII fragment). -/
def toLowerStr (s : String) : String := String.mk (s.data.map Char.toLower)

/-- Model of `StagePath.from_stage_str(...).absolute_path()`: ensure a
leading `@`. -/
def addAtSign (stage : String) : String :=
  match stage.data with
  | '@' :: _ => stage
  | _ => "@" ++ stage

/-- Embedding of `_get_package_base_path` rendered as a string. -/
def package_base_path (stage package_name : String) : String :=
  addAtSign stage ++ "/packages/" ++ package_name

/-- Embedding of `_get_version_path_str`. -/
def version_path_str (stage package_name version : String) : String :=
  package_base_path stage package_name ++ "/" ++ version

/-- The version-resolution prelude of `PackageManager.pull` (lines 529-547):
resolve the `"latest"` token (compared lowercased) through
`get_max_version`, failing when no versions exist; then require the
resolved version to exist; returns the stage path prefix that the download
phase operates on.  The source rebinds `version` and falls through to one
`version_exists` check; the fall-through is written out per branch here. -/
def pull_resolve (listing : Except String (List FileInfo))
    (stage package_name version : String) : Except CliErr String :=
  if toLowerStr version = "latest" then
    match get_max_version listing stage package_name with
    | none => .error .noVersionsFound
    | some m =>
      if version_exists listing stage package_name m then
        .ok (version_path_str stage package_name m)
      else .error .versionNotFound
  else
    if version_exists listing stage package_name version then
      .ok (version_path_str stage package_name version)
    else .error .versionNotFound

/-! ## manager.py — local tree model and the upload drain -/

/-- A directory path relative to the scratch root, as a list of path
segments (`[]` is the scratch root, the counterpart of `temp_dir`). -/
abbrev DirPath := List String

/-- The scratch copy of the local directory tree, flattened: the set of
directory paths it contains and, for each file, the directory that directly
contains it together with its file name. -/
structure LocalTree where
  dirs : List DirPath
  files : List (DirPath × String)
deriving DecidableEq, Repr

/-- Well-formedness of the flattened tree: directory paths are distinct, the
root is present, the parent of every directory is a directory, and every
file sits in an existing directory. -/
def LocalTree.WF (T : LocalTree) : Prop :=
  T.dirs.Nodup ∧ [] ∈ T.dirs ∧
    (∀ p ∈ T.dirs, p ≠ [] → p.dropLast ∈ T.dirs) ∧
    (∀ f ∈ T.files, f.1 ∈ T.dirs)

instance (T : LocalTree) : Decidable T.WF := by
  unfold LocalTree.WF; infer_instance

/-- The direct files of a directory (`iterdir` restricted to files); these
never change while the directory exists, since the drain only ever removes
whole subtrees. -/
def filesAt (T : LocalTree) (p : DirPath) : List String :=
  (T.files.filter (fun f => f.1 = p)).map (fun f => f.2)

/-- The direct subdirectories of `p` among the currently existing
directories (`iterdir` restricted to directories). -/
def childrenOf (dirs : List DirPath) (p : DirPath) : List DirPath :=
  dirs.filter (fun q => q ≠ [] ∧ q.dropLast = p)

/-- Stable insertion by final path segment: Python `sorted` over sibling
`Path` objects compares their final components. -/
def insertByName (a : DirPath) : List DirPath → List DirPath
  | [] => [a]
  | b :: bs =>
    if (b.getLastD "") < (a.getLastD "") then b :: insertByName a bs
    else a :: b :: bs

/-- Sort sibling directories by name (`sorted([d for d in iterdir ...])`). -/
def sortByName : List DirPath → List DirPath
  | [] => []
  | a :: as_ => insertByName a (sortByName as_)

/-- The BFS queue loop of `_find_deepest_directories`: pop a directory; if
it has no subdirectories collect it as a leaf (the `not in deepest_dirs`
guard of the source is kept although it never fires in a tree), otherwise
enqueue its children (likewise keeping the vacuous `not in` filter).  One
unit of fuel is spent per pop; `|dirs|` pops suffice since each popped path
is a distinct directory. -/
def bfsAux (dirs : List DirPath) :
    Nat → List DirPath → List DirPath → List DirPath
  | 0, _, acc => acc
  | _ + 1, [], acc => acc
  | fuel + 1, p :: rest, acc =>
    let cs := sortByName (childrenOf dirs p)
    if cs.isEmpty then
      bfsAux dirs fuel rest (if p ∈ acc then acc else acc ++ [p])
    else bfsAux dirs fuel (rest ++ cs.filter (fun c => c ∉ acc)) acc

/-- Embedding of `_find_deepest_directories`: BFS leaf collection starting
from the scratch root, then a stable sort by depth, deepest first. -/
def insertByDepth (a : DirPath) : List DirPath → List DirPath
  | [] => [a]
  | b :: bs =>
    if b.length ≤ a.length then a :: b :: bs else b :: insertByDepth a bs

/-- Stable sort by path depth, descending (`sorted(..., key=len,
reverse=True)`). -/
def sortByDepthDesc : List DirPath → List DirPath
  | [] => []
  | a :: as_ => insertByDepth a (sortByDepthDesc as_)

/-- Embedding of `_find_deepest_directories`. -/
def find_deepest_directories (T : LocalTree) : List DirPath :=
  sortByDepthDesc (bfsAux T.dirs T.dirs.length [[]] [])

/-- One batched upload call (`StageManager.put` on a whole directory):
the directory (relative to the scratch root) and the files it uploads. -/
structure Batch where
  dir : DirPath
  files : List String
deriving DecidableEq, Repr

/-- The drain loop of `_put_directory_recursive` (lines 231-277): pop the
front directory; skip the root while other directories remain; issue one
batched upload if the directory still has entries; stop after the root;
otherwise enqueue the parent unless it is already queued or some queued
entry lies inside it, and delete the directory from the scratch tree. -/
def runPut (T : LocalTree) :
    Nat → List DirPath → List DirPath → List Batch
  | 0, _, _ => []
  | fuel + 1, dirs, queue =>
    match queue with
    | [] => []
    | d :: rest =>
      if d = [] ∧ rest ≠ [] then runPut T fuel dirs rest
      else
        let fs := filesAt T d
        let batch : List Batch :=
          if fs ≠ [] ∨ childrenOf dirs d ≠ [] then [⟨d, fs⟩] else []
        if d = [] then batch
        else
          let parent := d.dropLast
          let queue2 :=
            if parent ∉ rest ∧ ¬ ∃ e ∈ rest, parent <+: e then rest ++ [parent]
            else rest
          batch ++ runPut T fuel (dirs.filter (fun q => ¬ d <+: q)) queue2

/-- Embedding of `_put_directory_recursive` on the scratch tree (the copy
step `_copy_to_tmp_dir` is the identity on the model): the sequence of
batched upload calls it issues, in order. -/
def put_directory_recursive (T : LocalTree) : List Batch :=
  let queue := find_deepest_directories T
  runPut T (2 * T.dirs.length + queue.length + 1) T.dirs queue

/-! ## manager.py — push and pull -/

/-- The state of the caller-supplied `local_path` argument of `push`:
missing, an existing non-directory, or a directory with contents. -/
inductive LocalPath where
  | missing
  | filePath
  | dirPath (t : LocalTree)

/-- A collaborator call observable from outside: the listing call issued by
`version_exists`, or one batched upload. -/
inductive CollabCall where
  | listFiles (path : String)
  | putBatch (target : String) (files : List String)
deriving DecidableEq, Repr

/-- Whether a rendered stage path already ends in a slash. -/
def endsWithSlash (s : String) : Bool := s.data.getLast? = some '/'

/-- The destination prefix of one batched upload: the version path plus the
directory's scratch-relative path (lines 218-220 and 241-245). -/
def batchTarget (stage_path : String) (d : DirPath) : String :=
  let sp := if endsWithSlash stage_path then stage_path else stage_path ++ "/"
  if d = [] then sp else sp ++ String.intercalate "/" d ++ "/"

/-- Embedding of `PackageManager.push`: the trace of collaborator calls it
makes and the error it raises, if any.  Preconditions are checked in source
order: existence, directory-ness, version immutability; only then are the
batched uploads issued. -/
def push (listing : Except String (List FileInfo))
    (stage package_name version : String) (local_path : LocalPath) :
    List CollabCall × Option CliErr :=
  match local_path with
  | .missing => ([], some .pathNotFound)
  | .filePath => ([], some .notADirectory)
  | .dirPath t =>
    let listCall := CollabCall.listFiles (package_base_path stage package_name)
    if version_exists listing stage package_name version then
      ([listCall], some .versionImmutable)
    else
      let sp := version_path_str stage package_name version
      (listCall ::
        (put_directory_recursive t).map
          (fun b => .putBatch (batchTarget sp b.dir) b.files),
        none)

/-- Outcome of one `StageManager.get` download attempt: success with the
file found in the scratch area, success but the file cannot be located
(recorded as "Downloaded file not found"), or a raised exception. -/
inductive DlResult where
  | ok
  | okMissing
  | raises (msg : String)
deriving DecidableEq, Repr

/-- One per-file result record of the pull download loop. -/
structure PullRec where
  file : String
  status : String
  error : Option String
deriving DecidableEq, Repr

/-- Python `s.lstrip("@")`. -/
def lstripAt (s : List Char) : List Char := s.dropWhile (fun c => c = '@')

/-- Python `s.rstrip("/")`. -/
def rstripSlash (s : List Char) : List Char :=
  (s.reverse.dropWhile (fun c => c = '/')).reverse

/-- Python `s.split(sep, 1)`: the part before the first separator and,
when the separator occurs, the remainder. -/
def splitFirst (sep : Char) : List Char → List Char × Option (List Char)
  | [] => ([], none)
  | c :: rest =>
    if c = sep then ([], some rest)
    else
      let pr := splitFirst sep rest
      (c :: pr.1, pr.2)

/-- Python `s.split(".")[-1]`. -/
def lastDotSeg (s : List Char) : List Char := (splitOnChar '.' s).getLastD []

/-- The stage-name surgery of `_get_directory_recursive` (lines 376-391):
the simple stage name, the fully qualified stage name, and the base prefix
expected in listing output. -/
def pullCtx (stage_path : String) : List Char × List Char × List Char :=
  let clean := rstripSlash (lstripAt stage_path.data)
  let pr := splitFirst '/' clean
  let fqn := pr.1
  let pathInStage := pr.2.getD []
  let simple := lastDotSeg fqn
  let basePre :=
    if pathInStage ≠ [] then simple ++ '/' :: pathInStage else simple
  (simple, fqn, basePre)

/-- The relative-path reconstruction for one listing record (lines
404-411). -/
def relativeOf (basePre name : List Char) : List Char :=
  if basePre ≠ [] ∧ (basePre ++ ['/']).isPrefixOf name then
    name.drop (basePre.length + 1)
  else if basePre ≠ [] ∧ basePre.isPrefixOf name then
    match name.drop basePre.length with
    | '/' :: t => t
    | r => r
  else name

/-- The fetchable stage path for one listing record (lines 419-423). -/
def stageFilePathOf (simple fqn name : List Char) : String :=
  let after :=
    if (simple ++ ['/']).isPrefixOf name then name.drop (simple.length + 1)
    else name
  String.mk ('@' :: (fqn ++ '/' :: after))

/-- The per-file outcome record: a raised download exception is caught and
recorded as a failed entry carrying `str(e)`; a download whose artifact
cannot be located is recorded as failed with "Downloaded file not found";
otherwise the file is moved into place and recorded as downloaded. -/
def dlRecord (oracle : String → DlResult) (rel : List Char) (sfp : String) :
    PullRec :=
  match oracle sfp with
  | .ok => ⟨String.mk rel, "downloaded", none⟩
  | .okMissing => ⟨String.mk rel, "failed", some "Downloaded file not found"⟩
  | .raises msg => ⟨String.mk rel, "failed", some msg⟩

/-- One file of the listing as processed by the download loop: `none` when
the loop skips it (empty name or empty relative path), otherwise its
reconstructed relative path and fetchable stage path. -/
def pullItem (stage_path : String) (fi : FileInfo) :
    Option (List Char × String) :=
  if fi.name.data = [] then none
  else
    if relativeOf (pullCtx stage_path).2.2 fi.name.data = [] then none
    else some (relativeOf (pullCtx stage_path).2.2 fi.name.data,
      stageFilePathOf (pullCtx stage_path).1 (pullCtx stage_path).2.1
        fi.name.data)

/-- The files the download loop actually processes, in order. -/
def processedOf (stage_path : String) (files : List FileInfo) :
    List (List Char × String) :=
  files.filterMap (pullItem stage_path)

/-- One iteration of the download loop: skip or append one result
record. -/
def pullStep (oracle : String → DlResult) (stage_path : String)
    (acc : List PullRec) (fi : FileInfo) : List PullRec :=
  match pullItem stage_path fi with
  | none => acc
  | some pr => acc ++ [dlRecord oracle pr.1 pr.2]

/-- Embedding of `_get_directory_recursive`: a listing exception degrades to
the empty result; an empty listing yields the empty result; otherwise each
listed file is processed independently, appending one result record per
processed file. -/
def get_directory_recursive (listing : Except String (List FileInfo))
    (oracle : String → DlResult) (stage_path : String) : List PullRec :=
  match listing with
  | .error _ => []
  | .ok files =>
    if files = [] then []
    else files.foldl (pullStep oracle stage_path) []

/-- Embedding of `PackageManager.pull`: version resolution followed by the
recursive download.  `listing` is the outcome of the listing call under the
package prefix (used by `get_max_version` / `version_exists`); `listing2`
the outcome of the listing call under the resolved version prefix. -/
def pull (listing listing2 : Except String (List FileInfo))
    (oracle : String → DlResult) (stage package_name version : String) :
    Except CliErr (List PullRec) :=
  match pull_resolve listing stage package_name version with
  | .error e => .error e
  | .ok sp => .ok (get_directory_recursive listing2 oracle sp)

/-- The end-to-end example tree of the spec: one root file and one file in
one nested subdirectory. -/
def exTree : LocalTree :=
  ⟨[[], ["sub"]], [([], "root.txt"), (["sub"], "nested.txt")]⟩

/-- A concrete listing with versions `1.0.0` and `2.0.0` of package
`my-package`, as returned under the package prefix. -/
def exListing : Except String (List FileInfo) :=
  .ok [⟨"test_stage/packages/my-package/1.0.0/a.txt"⟩,
       ⟨"test_stage/packages/my-package/2.0.0/d.txt"⟩]

/-! ## Lemmas about the splitter -/

theorem splitRuns_ne_nil (s : List Char) : splitRuns s ≠ [] := by
  cases s with
  | nil => simp [splitRuns]
  | cons c rest =>
    unfold splitRuns
    cases h : splitRuns rest with
    | nil => simp
    | cons n0 tail =>
      by_cases hd : c.isDigit
      · simp only [if_pos hd]
        cases n0 <;> cases tail <;> simp
      · simp [if_neg hd]

theorem splitRuns_flatten (s : List Char) : (splitRuns s).flatten = s := by
  induction s with
  | nil => simp [splitRuns]
  | cons c rest ih =>
    unfold splitRuns
    cases h : splitRuns rest with
    | nil => exact absurd h (splitRuns_ne_nil rest)
    | cons n0 tail =>
      rw [h] at ih
      by_cases hd : c.isDigit
      · simp only [if_pos hd]
        cases n0 with
        | nil =>
          cases tail with
          | nil => simp_all
          | cons d1 tl2 => simp_all
        | cons a n0t => simp_all
      · simp only [if_neg hd]
        simp_all

theorem splitOk_splitRuns (s : List Char) : splitOk (splitRuns s) = true := by
  induction s with
  | nil => simp [splitRuns, splitOk, nonDigitSeg, segsOk]
  | cons c rest ih =>
    unfold splitRuns
    cases h : splitRuns rest with
    | nil => exact absurd h (splitRuns_ne_nil rest)
    | cons n0 tail =>
      rw [h] at ih
      simp only [splitOk, Bool.and_eq_true] at ih
      obtain ⟨ihn0, ihtail⟩ := ih
      by_cases hd : c.isDigit
      · simp only [if_pos hd]
        cases n0 with
        | nil =>
          cases tail with
          | nil =>
            simp [splitOk, segsOk, nonDigitSeg, isDigitSeg, hd]
          | cons d1 tl2 =>
            simp only [segsOk, Bool.and_eq_true] at ihtail
            obtain ⟨hd1, htl2⟩ := ihtail
            simp only [splitOk, segsOk, Bool.and_eq_true]
            refine ⟨by simp [nonDigitSeg], ?_, htl2⟩
            simp only [isDigitSeg, Bool.and_eq_true] at hd1 ⊢
            simp [hd, hd1.2]
        | cons a n0t =>
          simp only [splitOk, segsOk, Bool.and_eq_true]
          refine ⟨by simp [nonDigitSeg], ?_⟩
          have hds : isDigitSeg [c] = true := by simp [isDigitSeg, hd]
          cases tail with
          | nil => simp [segsOk, hds, ihn0]
          | cons t1 tl =>
            simp only [segsOk, Bool.and_eq_true] at ihtail
            simp [segsOk, hds, ihn0, ihtail.1, ihtail.2]
      · simp only [if_neg hd]
        simp only [splitOk, Bool.and_eq_true]
        refine ⟨?_, ihtail⟩
        simp only [nonDigitSeg, List.all_cons, Bool.and_eq_true] at ihn0 ⊢
        simp [hd, ihn0]

/-! ## Lemmas about key shape and key comparison -/

theorem alphanum_convert_digit (t : List Char) (h : isDigitSeg t = true) :
    alphanum_convert t = .num (natOfDigits t) := by
  simp only [isDigitSeg] at h
  simp [alphanum_convert, h]

theorem alphanum_convert_nondigit (t : List Char) (h : nonDigitSeg t = true) :
    alphanum_convert t = .str (t.map Char.toLower) := by
  cases t with
  | nil => simp [alphanum_convert]
  | cons c r =>
    simp only [nonDigitSeg, List.all_cons, Bool.and_eq_true, Bool.not_eq_true'] at h
    simp [alphanum_convert, h.1]

theorem keyOk_of_segsOk (l : List (List Char)) :
    ∀ (b : Bool), segsOk b l = true → keyOk b (l.map alphanum_convert) = true := by
  induction l with
  | nil => intro b _; simp [keyOk]
  | cons p rest ih =>
    intro b hb
    cases b with
    | true =>
      simp only [segsOk, Bool.and_eq_true] at hb
      rw [List.map_cons, alphanum_convert_digit p hb.1]
      simpa [keyOk] using ih false hb.2
    | false =>
      cases rest with
      | nil =>
        simp only [segsOk] at hb
        rw [List.map_cons, alphanum_convert_nondigit p hb]
        simp [keyOk]
      | cons q rest2 =>
        simp only [segsOk, Bool.and_eq_true] at hb
        rw [List.map_cons, alphanum_convert_nondigit p hb.1.1]
        have hrest : segsOk true (q :: rest2) = true := by
          simp [segsOk, hb.2.1, hb.2.2]
        simpa [keyOk] using ih true hrest

theorem keyOk_key (os : Option String) :
    keyOk false (get_alphanum_key os) = true := by
  cases os with
  | none => simp [get_alphanum_key, keyOk]
  | some s =>
    by_cases hs : s = ""
    · simp [get_alphanum_key, hs, keyOk]
    · simp only [get_alphanum_key, if_neg hs]
      have h := splitOk_splitRuns s.data
      cases hsp : splitRuns s.data with
      | nil => exact absurd hsp (splitRuns_ne_nil s.data)
      | cons n0 rest =>
        rw [hsp] at h
        simp only [splitOk, Bool.and_eq_true] at h
        rw [List.map_cons, alphanum_convert_nondigit n0 h.1]
        simpa [keyOk] using keyOk_of_segsOk rest true h.2

theorem keyOk_isNum (k : List KeyElem) :
    ∀ (b : Bool) (i : Nat) (h : i < k.length), keyOk b k = true →
      (k.get ⟨i, h⟩).isNum = decide ((i + (if b then 0 else 1)) % 2 = 0) := by
  induction k with
  | nil => intro b i h _; simp at h
  | cons x r ih =>
    intro b i h hk
    cases b with
    | true =>
      cases x with
      | str s => simp [keyOk] at hk
      | num n =>
        simp only [keyOk] at hk
        cases i with
        | zero => simp [KeyElem.isNum]
        | succ j =>
          have := ih false j (Nat.lt_of_succ_lt_succ h) hk
          simp only [List.get] at this ⊢
          rw [this]
          simp
    | false =>
      cases x with
      | num n => simp [keyOk] at hk
      | str s =>
        simp only [keyOk] at hk
        cases i with
        | zero => simp [KeyElem.isNum]
        | succ j =>
          have := ih true j (Nat.lt_of_succ_lt_succ h) hk
          simp only [List.get] at this ⊢
          rw [this]
          have : (j + 1 + 1) % 2 = j % 2 := Nat.add_mod_right j 2
          simp [this]

theorem cmpKey_isSome_of_keyOk (k1 : List KeyElem) :
    ∀ (k2 : List KeyElem) (b : Bool), keyOk b k1 = true → keyOk b k2 = true →
      (cmpKey k1 k2).isSome = true := by
  induction k1 with
  | nil => intro k2 b _ _; cases k2 <;> simp [cmpKey]
  | cons x r ih =>
    intro k2 b h1 h2
    cases k2 with
    | nil => simp [cmpKey]
    | cons y s =>
      cases b with
      | true =>
        cases x with
        | str _ => simp [keyOk] at h1
        | num a =>
          cases y with
          | str _ => simp [keyOk] at h2
          | num c =>
            simp only [keyOk] at h1 h2
            simp only [cmpKey, cmpElem]
            cases hc : cmpNat a c with
            | eq => exact ih s false h1 h2
            | lt => simp
            | gt => simp
      | false =>
        cases x with
        | num _ => simp [keyOk] at h1
        | str a =>
          cases y with
          | num _ => simp [keyOk] at h2
          | str c =>
            simp only [keyOk] at h1 h2
            simp only [cmpKey, cmpElem]
            cases hc : cmpChars a c with
            | eq => exact ih s true h1 h2
            | lt => simp
            | gt => simp

/-- C6: for every input string, `get_alphanum_key` splits it on maximal
runs of decimal digits into alternating non-digit and digit segments
(witnessed by the facts that the segments concatenate back to the input and
satisfy the alternation/maximality shape predicate `splitOk`), converts
each digit run to its integer value and lowercases each non-digit segment;
empty or `None` input yields the empty key; `"1.2.2"` and `"v1.0"` map to
the documented keys, and under the resulting key order
`"1.0.9" < "1.0.10"`. -/
theorem c6_derive_sort_key (s : String) :
    (splitRuns s.data).flatten = s.data ∧
    splitOk (splitRuns s.data) = true ∧
    (∀ t : List Char, isDigitSeg t = true →
      alphanum_convert t = .num (natOfDigits t)) ∧
    (∀ t : List Char, nonDigitSeg t = true →
      alphanum_convert t = .str (t.map Char.toLower)) ∧
    get_alphanum_key none = [] ∧
    get_alphanum_key (some "") = [] ∧
    (s ≠ "" →
      get_alphanum_key (some s) = (splitRuns s.data).map alphanum_convert) ∧
    get_alphanum_key (some "1.2.2") =
      [.str [], .num 1, .str ['.'], .num 2, .str ['.'], .num 2, .str []] ∧
    get_alphanum_key (some "v1.0") =
      [.str ['v'], .num 1, .str ['.'], .num 0, .str []] ∧
    cmpStrK "1.0.9" "1.0.10" = some Ordering.lt := by
  refine ⟨splitRuns_flatten s.data, splitOk_splitRuns s.data,
    alphanum_convert_digit, alphanum_convert_nondigit, rfl, by decide,
    ?_, by decide, by decide, by decide⟩
  intro hs
  simp [get_alphanum_key, hs]

/-- Witness for C6 at the concrete input `"1.2.2"`, discharging the
non-empty-string hypothesis of the segment-map conjunct. -/
theorem c6_derive_sort_key_witness :
    get_alphanum_key (some "1.2.2") =
      (splitRuns ("1.2.2" : String).data).map alphanum_convert :=
  (c6_derive_sort_key "1.2.2").2.2.2.2.2.2.1 (by decide)

/-- C7: comparing the derived keys of any two strings never compares an
integer element against a string element: the comparison always returns a
result (never the `TypeError` marker `none`), and at every index where both
keys have an element the two elements agree on being integer or string
(both follow the same position parity).  Hence key comparison is total on
derived keys and the sort and max operations built on it cannot fail on a
cross-type comparison. -/
theorem c7_no_cross_type_comparison (a b : String) :
    (cmpStrK a b).isSome = true ∧
    ∀ (i : Nat) (ha : i < (get_alphanum_key (some a)).length)
      (hb : i < (get_alphanum_key (some b)).length),
      ((get_alphanum_key (some a)).get ⟨i, ha⟩).isNum =
        ((get_alphanum_key (some b)).get ⟨i, hb⟩).isNum := by
  constructor
  · exact cmpKey_isSome_of_keyOk _ _ false (keyOk_key (some a)) (keyOk_key (some b))
  · intro i ha hb
    rw [keyOk_isNum _ false i ha (keyOk_key (some a)),
      keyOk_isNum _ false i hb (keyOk_key (some b))]

/-- Witness for C7 at concrete inputs `"v1.0"` and `"1.0.9"` and index 1,
discharging the index-bound hypotheses. -/
theorem c7_no_cross_type_comparison_witness :
    ((get_alphanum_key (some "v1.0")).get ⟨1, by decide⟩).isNum =
      ((get_alphanum_key (some "1.0.9")).get ⟨1, by decide⟩).isNum :=
  (c7_no_cross_type_comparison "v1.0" "1.0.9").2 1 (by decide) (by decide)

/-! ## Order-theoretic lemmas for the key comparison -/

theorem cmpNat_self (a : Nat) : cmpNat a a = .eq := by
  simp [cmpNat]

theorem cmpNat_eq {a b : Nat} (h : cmpNat a b = .eq) : a = b := by
  unfold cmpNat at h
  split_ifs at h with h1 h2
  exact h2

theorem cmpNat_gt {a b : Nat} : cmpNat a b = .gt ↔ b < a := by
  unfold cmpNat
  split_ifs with h1 h2 <;> simp <;> omega

theorem cmpChars_self (l : List Char) : cmpChars l l = .eq := by
  induction l with
  | nil => simp [cmpChars]
  | cons c r ih => simp [cmpChars, ih]

theorem cmpChars_eq : ∀ {a b : List Char}, cmpChars a b = .eq → a = b := by
  intro a
  induction a with
  | nil =>
    intro b h
    cases b with
    | nil => rfl
    | cons y ys => simp [cmpChars] at h
  | cons x xs ih =>
    intro b h
    cases b with
    | nil => simp [cmpChars] at h
    | cons y ys =>
      unfold cmpChars at h
      split_ifs at h with h1 h2
      have hxy : x = y := le_antisymm (not_lt.mp h2) (not_lt.mp h1)
      rw [hxy, ih h]

theorem cmpChars_gt_trans :
    ∀ {a b c : List Char}, cmpChars a b = .gt → cmpChars b c = .gt →
      cmpChars a c = .gt := by
  intro a
  induction a with
  | nil =>
    intro b c h1 _
    cases b with
    | nil => simp [cmpChars] at h1
    | cons y ys => simp [cmpChars] at h1
  | cons x xs ih =>
    intro b c h1 h2
    cases b with
    | nil =>
      cases c with
      | nil => simp [cmpChars] at h2
      | cons z zs => simp [cmpChars] at h2
    | cons y ys =>
      cases c with
      | nil => simp [cmpChars]
      | cons z zs =>
        simp only [cmpChars] at h1 h2 ⊢
        rcases lt_trichotomy x y with hxy | hxy | hxy
        · simp [if_pos hxy] at h1
        · subst hxy
          rw [if_neg (lt_irrefl x), if_neg (lt_irrefl x)] at h1
          rcases lt_trichotomy x z with hxz | hxz | hxz
          · simp [if_pos hxz] at h2
          · subst hxz
            rw [if_neg (lt_irrefl x), if_neg (lt_irrefl x)] at h2 ⊢
            exact ih h1 h2
          · rw [if_neg (asymm hxz), if_pos hxz]
        · rcases lt_trichotomy y z with hyz | hyz | hyz
          · simp [if_pos hyz] at h2
          · subst hyz
            rw [if_neg (asymm hxy), if_pos hxy]
          · have hxz : z < x := lt_trans hyz hxy
            rw [if_neg (asymm hxz), if_pos hxz]

theorem cmpNat_symm (a b : Nat) : cmpNat b a = (cmpNat a b).swap := by
  unfold cmpNat
  split_ifs <;> first | rfl | (exfalso; omega)

theorem cmpChars_symm : ∀ (a b : List Char),
    cmpChars b a = (cmpChars a b).swap := by
  intro a
  induction a with
  | nil => intro b; cases b <;> rfl
  | cons x xs ih =>
    intro b
    cases b with
    | nil => rfl
    | cons y ys =>
      simp only [cmpChars]
      rcases lt_trichotomy x y with h | h | h
      · rw [if_pos h, if_neg (asymm h), if_pos h]
        rfl
      · subst h
        rw [if_neg (lt_irrefl x), if_neg (lt_irrefl x), if_neg (lt_irrefl x),
          if_neg (lt_irrefl x)]
        exact ih ys
      · rw [if_pos h, if_neg (asymm h), if_pos h]
        rfl

theorem cmpElem_self (x : KeyElem) : cmpElem x x = some .eq := by
  cases x <;> simp [cmpElem, cmpChars_self, cmpNat_self]

theorem cmpElem_eq : ∀ {x y : KeyElem}, cmpElem x y = some .eq → x = y := by
  intro x y h
  cases x <;> cases y <;> simp [cmpElem] at h ⊢
  · exact cmpChars_eq h
  · exact cmpNat_eq h

theorem cmpElem_gt_trans : ∀ {x y z : KeyElem}, cmpElem x y = some .gt →
    cmpElem y z = some .gt → cmpElem x z = some .gt := by
  intro x y z h1 h2
  cases x <;> cases y <;> cases z <;> simp [cmpElem] at h1 h2 ⊢
  · exact cmpChars_gt_trans h1 h2
  · exact cmpNat_gt.mpr (lt_trans (cmpNat_gt.mp h2) (cmpNat_gt.mp h1))

theorem cmpElem_symm (x y : KeyElem) :
    cmpElem y x = (cmpElem x y).map Ordering.swap := by
  cases x with
  | str a =>
    cases y with
    | str b =>
      simp only [cmpElem]
      rw [cmpChars_symm a b]
      rfl
    | num n => rfl
  | num m =>
    cases y with
    | str b => rfl
    | num n =>
      simp only [cmpElem]
      rw [cmpNat_symm m n]
      rfl

theorem cmpKey_self (k : List KeyElem) : cmpKey k k = some .eq := by
  induction k with
  | nil => simp [cmpKey]
  | cons x r ih => simp [cmpKey, cmpElem_self, ih]

theorem cmpKey_eq : ∀ {k1 k2 : List KeyElem},
    cmpKey k1 k2 = some .eq → k1 = k2 := by
  intro k1
  induction k1 with
  | nil =>
    intro k2 h
    cases k2 with
    | nil => rfl
    | cons y s => simp [cmpKey] at h
  | cons x r ih =>
    intro k2 h
    cases k2 with
    | nil => simp [cmpKey] at h
    | cons y s =>
      simp only [cmpKey] at h
      cases he : cmpElem x y with
      | none => rw [he] at h; simp at h
      | some o =>
        rw [he] at h
        cases o with
        | eq => rw [cmpElem_eq he, ih h]
        | lt => simp at h
        | gt => simp at h

theorem cmpKey_symm : ∀ (k1 k2 : List KeyElem),
    cmpKey k2 k1 = (cmpKey k1 k2).map Ordering.swap := by
  intro k1
  induction k1 with
  | nil => intro k2; cases k2 <;> rfl
  | cons x r ih =>
    intro k2
    cases k2 with
    | nil => rfl
    | cons y s =>
      simp only [cmpKey]
      rw [cmpElem_symm]
      cases he : cmpElem x y with
      | none => simp
      | some o =>
        cases o with
        | eq => simpa using ih s
        | lt => simp [Ordering.swap]
        | gt => simp [Ordering.swap]

theorem cmpKey_gt_trans : ∀ {k1 k2 k3 : List KeyElem},
    cmpKey k1 k2 = some .gt → cmpKey k2 k3 = some .gt →
      cmpKey k1 k3 = some .gt := by
  intro k1
  induction k1 with
  | nil =>
    intro k2 k3 h1 _
    cases k2 with
    | nil => simp [cmpKey] at h1
    | cons y s => simp [cmpKey] at h1
  | cons x r ih =>
    intro k2 k3 h1 h2
    cases k2 with
    | nil =>
      cases k3 with
      | nil => simp [cmpKey] at h2
      | cons z t => simp [cmpKey] at h2
    | cons y s =>
      cases k3 with
      | nil => simp [cmpKey]
      | cons z t =>
        simp only [cmpKey] at h1 h2 ⊢
        cases he1 : cmpElem x y with
        | none => rw [he1] at h1; simp at h1
        | some o1 =>
          rw [he1] at h1
          cases he2 : cmpElem y z with
          | none => rw [he2] at h2; simp at h2
          | some o2 =>
            rw [he2] at h2
            cases o1 with
            | lt => simp at h1
            | eq =>
              have hxy := cmpElem_eq he1
              subst hxy
              cases o2 with
              | lt => simp at h2
              | eq =>
                have hyz := cmpElem_eq he2
                subst hyz
                rw [cmpElem_self]
                exact ih h1 h2
              | gt => rw [he2]
            | gt =>
              cases o2 with
              | lt => simp at h2
              | eq =>
                have hyz := cmpElem_eq he2
                subst hyz
                rw [he1]
              | gt => rw [cmpElem_gt_trans he1 he2]

theorem cmpStrK_self (a : String) : cmpStrK a a = some .eq := cmpKey_self _

theorem cmpStrK_total (a b : String) : ∃ o, cmpStrK a b = some o :=
  Option.isSome_iff_exists.mp
    (cmpKey_isSome_of_keyOk _ _ false (keyOk_key (some a)) (keyOk_key (some b)))

theorem cmpStrK_gt_trans {a b c : String} (h1 : cmpStrK a b = some .gt)
    (h2 : cmpStrK b c = some .gt) : cmpStrK a c = some .gt :=
  cmpKey_gt_trans h1 h2

theorem cmpStrK_swap (a b : String) :
    cmpStrK b a = (cmpStrK a b).map Ordering.swap :=
  cmpKey_symm _ _

theorem cmpStrK_eq_key {a b : String} (h : cmpStrK a b = some .eq) :
    get_alphanum_key (some a) = get_alphanum_key (some b) :=
  cmpKey_eq h

theorem cmpStrK_not_gt {v x : String} (h : ¬ cmpStrK v x = some .gt) :
    cmpStrK v x = some .lt ∨ cmpStrK v x = some .eq := by
  rcases cmpStrK_total v x with ⟨o, ho⟩
  cases o with
  | lt => exact Or.inl ho
  | eq => exact Or.inr ho
  | gt => exact absurd ho h

/-! ## Lemmas about the left-to-right max scan -/

theorem foldl_maxStep_mem : ∀ (xs : List String) (x : String),
    xs.foldl maxStep x ∈ x :: xs := by
  intro xs
  induction xs with
  | nil => intro x; simp
  | cons v xs ih =>
    intro x
    simp only [List.foldl_cons]
    have hmem := ih (maxStep x v)
    by_cases h : cmpStrK v x = some Ordering.gt
    · rw [show maxStep x v = v from if_pos h] at hmem ⊢
      exact List.mem_cons_of_mem x hmem
    · rw [show maxStep x v = x from if_neg h] at hmem ⊢
      rcases List.mem_cons.mp hmem with h1 | h1
      · rw [h1]; exact List.mem_cons_self x (v :: xs)
      · exact List.mem_cons_of_mem x (List.mem_cons_of_mem v h1)

theorem foldl_maxStep_not_gt : ∀ (xs : List String) (x w : String),
    w ∈ x :: xs → cmpStrK w (xs.foldl maxStep x) ≠ some Ordering.gt := by
  intro xs
  induction xs with
  | nil =>
    intro x w hw
    rw [List.mem_singleton] at hw
    subst hw
    simp [List.foldl_nil, cmpStrK_self]
  | cons v xs ih =>
    intro x w hw hgt
    simp only [List.foldl_cons] at hgt
    by_cases h : cmpStrK v x = some Ordering.gt
    · rw [show maxStep x v = v from if_pos h] at hgt
      rcases List.mem_cons.mp hw with hwx | hw2
      · rw [hwx] at hgt
        have hv := ih v v (List.mem_cons_self v xs)
        exact hv (cmpStrK_gt_trans h hgt)
      · rcases List.mem_cons.mp hw2 with hwv | hw3
        · rw [hwv] at hgt
          exact ih v v (List.mem_cons_self v xs) hgt
        · exact ih v w (List.mem_cons_of_mem v hw3) hgt
    · rw [show maxStep x v = x from if_neg h] at hgt
      rcases List.mem_cons.mp hw with hwx | hw2
      · rw [hwx] at hgt
        exact ih x x (List.mem_cons_self x xs) hgt
      · rcases List.mem_cons.mp hw2 with hwv | hw3
        · rw [hwv] at hgt
          rcases cmpStrK_not_gt h with hlt | heq
          · have hxv : cmpStrK x v = some Ordering.gt := by
              rw [cmpStrK_swap v x, hlt]
              rfl
            exact ih x x (List.mem_cons_self x xs)
              (cmpStrK_gt_trans hxv hgt)
          · have hk := cmpStrK_eq_key heq
            have hx : cmpStrK x (List.foldl maxStep x xs) =
                some Ordering.gt := by
              unfold cmpStrK at hgt ⊢
              rw [← hk]
              exact hgt
            exact ih x x (List.mem_cons_self x xs) hx
        · exact ih x w (List.mem_cons_of_mem x hw3) hgt

theorem foldl_maxStep_keep : ∀ (l2 : List String) (best : String),
    (∀ w ∈ l2, cmpStrK w best ≠ some Ordering.gt) →
      l2.foldl maxStep best = best := by
  intro l2
  induction l2 with
  | nil => intro best _; rfl
  | cons w l2 ih =>
    intro best h
    simp only [List.foldl_cons]
    rw [show maxStep best w = best from
      if_neg (h w (List.mem_cons_self w l2))]
    exact ih best (fun u hu => h u (List.mem_cons_of_mem w hu))

theorem foldl_maxStep_first : ∀ (l1 : List String) (x v : String)
    (l2 : List String),
    (∀ w ∈ x :: l1, cmpStrK w v = some Ordering.lt) →
    (∀ w ∈ l2, cmpStrK w v ≠ some Ordering.gt) →
    (l1 ++ v :: l2).foldl maxStep x = v := by
  intro l1
  induction l1 with
  | nil =>
    intro x v l2 h1 h2
    simp only [List.nil_append, List.foldl_cons]
    have hx : cmpStrK x v = some Ordering.lt :=
      h1 x (List.mem_cons_self x [])
    have hvx : cmpStrK v x = some Ordering.gt := by
      rw [cmpStrK_swap x v, hx]
      rfl
    rw [show maxStep x v = v from if_pos hvx]
    exact foldl_maxStep_keep l2 v h2
  | cons y l1 ih =>
    intro x v l2 h1 h2
    simp only [List.cons_append, List.foldl_cons]
    have hstep : cmpStrK (maxStep x y) v = some Ordering.lt := by
      unfold maxStep
      split_ifs
      · exact h1 y (List.mem_cons_of_mem x (List.mem_cons_self y l1))
      · exact h1 x (List.mem_cons_self x (y :: l1))
    refine ih (maxStep x y) v l2 ?_ h2
    intro w hw
    rcases List.mem_cons.mp hw with rfl | hw2
    · exact hstep
    · exact h1 w (List.mem_cons_of_mem x (List.mem_cons_of_mem y hw2))

/-- C9: `max_alphanumeric` filters out all `None` and empty-string entries;
it returns `None` exactly when no valid entries remain, and otherwise
returns one of the valid entries, whose derived key is greatest under the
total key order; the three documented examples hold. -/
theorem c9_max_version (versions : List (Option String)) :
    (max_alphanumeric versions = none ↔ validOf versions = []) ∧
    (∀ v, max_alphanumeric versions = some v →
      v ∈ validOf versions ∧
      ∀ w ∈ validOf versions, cmpStrK w v ≠ some Ordering.gt) ∧
    max_alphanumeric [none, some "1.0.0", none, some "2.0.0"] =
      some "2.0.0" ∧
    max_alphanumeric [] = none ∧
    max_alphanumeric [some "", some ""] = none := by
  refine ⟨?_, ?_, by decide, by decide, by decide⟩
  · unfold max_alphanumeric
    cases h : validOf versions <;> simp
  · intro v hv
    unfold max_alphanumeric at hv
    cases h : validOf versions with
    | nil => rw [h] at hv; simp at hv
    | cons x xs =>
      rw [h] at hv
      simp only [Option.some_inj] at hv
      subst hv
      constructor
      · exact foldl_maxStep_mem xs x
      · intro w hw
        exact foldl_maxStep_not_gt xs x w hw

/-- Witness for C9 at the concrete input
`[None, "1.0.0", None, "2.0.0"]` with result `"2.0.0"` and the valid entry
`"1.0.0"`, discharging the hypotheses of the maximality conjunct. -/
theorem c9_max_version_witness :
    "2.0.0" ∈ validOf [none, some "1.0.0", none, some "2.0.0"] ∧
    cmpStrK "1.0.0" "2.0.0" ≠ some Ordering.gt :=
  ⟨((c9_max_version [none, some "1.0.0", none, some "2.0.0"]).2.1
      "2.0.0" (by decide)).1,
    ((c9_max_version [none, some "1.0.0", none, some "2.0.0"]).2.1
      "2.0.0" (by decide)).2 "1.0.0" (by decide)⟩

/-- C10 counterexample: `"1.0"` and `"1.00"` are distinct strings whose
derived keys are equal (and maximal in the two-element list), yet
`max_alphanumeric` returns the FIRST-encountered maximal element `"1.0"`,
not the last-encountered `"1.00"` as the claim states. -/
theorem c10_last_max_counterexample :
    cmpStrK "1.0" "1.00" = some Ordering.eq ∧
    ("1.0" : String) ≠ "1.00" ∧
    max_alphanumeric [some "1.0", some "1.00"] = some "1.0" ∧
    max_alphanumeric [some "1.0", some "1.00"] ≠ some "1.00" := by
  refine ⟨by decide, by decide, by decide, by decide⟩

/-- C10 amended: for every input list, if the valid entries split as
`l1 ++ v :: l2` where every entry before `v` compares strictly below `v`
and no entry after `v` compares strictly above `v` (so `v` is the
first-encountered maximal element under a left-to-right scan, including
in the presence of distinct strings with equal maximal keys),
`max_alphanumeric` returns `v`. -/
theorem c10_first_max (versions : List (Option String)) (l1 : List String)
    (v : String) (l2 : List String)
    (hsplit : validOf versions = l1 ++ v :: l2)
    (hbefore : ∀ w ∈ l1, cmpStrK w v = some Ordering.lt)
    (hafter : ∀ w ∈ l2, cmpStrK w v ≠ some Ordering.gt) :
    max_alphanumeric versions = some v := by
  unfold max_alphanumeric
  rw [hsplit]
  cases l1 with
  | nil =>
    simp only [List.nil_append]
    rw [foldl_maxStep_keep l2 v hafter]
  | cons x l1x =>
    simp only [List.cons_append]
    rw [foldl_maxStep_first l1x x v l2 hbefore hafter]

/-- Witness for C10 amended at the concrete tie
`["1.0", "1.00"]`, discharging its hypotheses. -/
theorem c10_first_max_witness :
    max_alphanumeric [some "1.0", some "1.00"] = some "1.0" :=
  c10_first_max [some "1.0", some "1.00"] [] "1.0" ["1.00"]
    (by decide) (by decide) (by decide)

/-! ## Lemmas about increment_version -/

theorem strMk_data (t : String) : String.mk t.data = t := rfl

theorem not_digitSeg_and_nonDigitSeg {p : List Char}
    (h1 : isDigitSeg p = true) (h2 : nonDigitSeg p = true) : False := by
  cases p with
  | nil => simp [isDigitSeg] at h1
  | cons c r =>
    simp only [isDigitSeg, List.isEmpty_cons, Bool.not_false, Bool.true_and,
      List.all_cons, Bool.and_eq_true] at h1
    simp only [nonDigitSeg, List.all_cons, Bool.and_eq_true,
      Bool.not_eq_true'] at h2
    rw [h1.1] at h2
    simp at h2

theorem segsOk_cases : ∀ (l : List (List Char)) (b : Bool),
    segsOk b l = true → ∀ p ∈ l, nonDigitSeg p = true ∨ isDigitSeg p = true := by
  intro l
  induction l with
  | nil => intro b _ p hp; simp at hp
  | cons q rest ih =>
    intro b hb p hp
    rcases List.mem_cons.mp hp with hq | hrest
    · subst hq
      cases b with
      | true =>
        simp only [segsOk, Bool.and_eq_true] at hb
        exact Or.inr hb.1
      | false =>
        cases rest with
        | nil => exact Or.inl hb
        | cons r rest2 =>
          simp only [segsOk, Bool.and_eq_true] at hb
          exact Or.inl hb.1.1
    · cases b with
      | true =>
        simp only [segsOk, Bool.and_eq_true] at hb
        exact ih false hb.2 p hrest
      | false =>
        cases rest with
        | nil => simp at hrest
        | cons r rest2 =>
          simp only [segsOk, Bool.and_eq_true] at hb
          have hb2 : segsOk true (r :: rest2) = true := by
            simp [segsOk, hb.2.1, hb.2.2]
          exact ih true hb2 p hrest

theorem splitOk_cases {l : List (List Char)} (h : splitOk l = true) :
    ∀ p ∈ l, nonDigitSeg p = true ∨ isDigitSeg p = true := by
  cases l with
  | nil => simp [splitOk] at h
  | cons n0 rest =>
    simp only [splitOk, Bool.and_eq_true] at h
    intro p hp
    rcases List.mem_cons.mp hp with hq | hrest
    · exact Or.inl (hq ▸ h.1)
    · exact segsOk_cases rest true h.2 p hrest

theorem incLast_none : ∀ (l : List (List Char)),
    incLast l = none ↔ ∀ p ∈ l, isDigitSeg p = false := by
  intro l
  induction l with
  | nil => simp [incLast]
  | cons p rest ih =>
    simp only [incLast]
    cases hr : incLast rest with
    | some r =>
      constructor
      · intro hno; simp at hno
      · intro hall
        exfalso
        have : incLast rest = none :=
          ih.mpr (fun q hq => hall q (List.mem_cons_of_mem p hq))
        rw [hr] at this
        simp at this
    | none =>
      by_cases hp : isDigitSeg p = true
      · rw [if_pos hp]
        constructor
        · intro hno; simp at hno
        · intro hall
          have := hall p (List.mem_cons_self p rest)
          rw [hp] at this
          simp at this
      · rw [if_neg hp]
        simp only [Bool.not_eq_true] at hp
        constructor
        · intro _ q hq
          rcases List.mem_cons.mp hq with h1 | h1
          · rw [h1]; exact hp
          · exact ih.mp hr q h1
        · intro _; rfl

theorem incLast_some : ∀ (l : List (List Char)) (r : List (List Char)),
    incLast l = some r →
    ∃ l1 p l2, l = l1 ++ p :: l2 ∧ isDigitSeg p = true ∧
      (∀ q ∈ l2, isDigitSeg q = false) ∧
      r = l1 ++ Nat.toDigits 10 (natOfDigits p + 1) :: l2 := by
  intro l
  induction l with
  | nil => intro r h; simp [incLast] at h
  | cons p rest ih =>
    intro r h
    simp only [incLast] at h
    cases hr : incLast rest with
    | some r2 =>
      rw [hr] at h
      simp only [Option.some_inj] at h
      obtain ⟨l1, q, l2, hsplit, hdig, hafter, hres⟩ := ih r2 hr
      refine ⟨p :: l1, q, l2, by rw [hsplit]; rfl, hdig, hafter, ?_⟩
      rw [← h, hres]
      rfl
    | none =>
      rw [hr] at h
      by_cases hp : isDigitSeg p = true
      · rw [if_pos hp] at h
        simp only [Option.some_inj] at h
        refine ⟨[], p, rest, rfl, hp, ?_, by rw [← h]; rfl⟩
        exact (incLast_none rest).mp hr
      · rw [if_neg hp] at h
        simp at h

theorem segsOk_adj : ∀ (l1 : List (List Char)) (l : List (List Char))
    (b : Bool) (n p : List Char) (l2 : List (List Char)),
    segsOk b l = true → l = l1 ++ n :: p :: l2 → isDigitSeg p = true →
    nonDigitSeg n = true ∧ n ≠ [] := by
  intro l1
  induction l1 with
  | nil =>
    intro l b n p l2 hs hl hp
    subst hl
    cases b with
    | true =>
      exfalso
      simp only [List.nil_append, segsOk, Bool.and_eq_true] at hs
      cases l2 with
      | nil => exact not_digitSeg_and_nonDigitSeg hp hs.2
      | cons m l2x =>
        simp only [segsOk, Bool.and_eq_true] at hs
        exact not_digitSeg_and_nonDigitSeg hp hs.2.1.1
    | false =>
      simp only [List.nil_append, segsOk, Bool.and_eq_true] at hs
      refine ⟨hs.1.1, ?_⟩
      have := hs.1.2
      simp only [Bool.not_eq_true'] at this
      intro hn
      rw [hn] at this
      simp at this
  | cons q l1x ih =>
    intro l b n p l2 hs hl hp
    subst hl
    obtain ⟨t, ts, hts⟩ : ∃ t ts, l1x ++ n :: p :: l2 = t :: ts := by
      cases l1x <;> exact ⟨_, _, rfl⟩
    simp only [List.cons_append] at hs
    rw [hts] at hs
    cases b with
    | true =>
      simp only [segsOk, Bool.and_eq_true] at hs
      have hs2 : segsOk false (l1x ++ n :: p :: l2) = true := by
        rw [hts]; exact hs.2
      exact ih _ false n p l2 hs2 rfl hp
    | false =>
      simp only [segsOk, Bool.and_eq_true] at hs
      have hs2 : segsOk true (l1x ++ n :: p :: l2) = true := by
        rw [hts]
        simp [segsOk, hs.2.1, hs.2.2]
      exact ih _ true n p l2 hs2 rfl hp

/-- C8: for every input string, `increment_version` adds 1 to the last
maximal digit run, re-rendered as a decimal numeral without leading zeros,
leaving everything before and after unchanged (the part after the run is
digit-free and the character before the run, if any, is a non-digit, so
the run is maximal); a string with no digits is returned unchanged; the
function is total, and the documented examples hold, including the
leading-zero example `"1.09" → "1.10"`. -/
theorem c8_increment_last_numeric (s : String) :
    ((∀ c ∈ s.data, c.isDigit = false) → increment_version s = s) ∧
    ((∃ c ∈ s.data, c.isDigit = true) →
      ∃ a d b, s.data = a ++ d ++ b ∧ isDigitSeg d = true ∧
        (∀ c ∈ b, c.isDigit = false) ∧
        (∀ c, a.getLast? = some c → c.isDigit = false) ∧
        (increment_version s).data =
          a ++ Nat.toDigits 10 (natOfDigits d + 1) ++ b) ∧
    increment_version "1.0.0" = "1.0.1" ∧
    increment_version "1.0.9" = "1.0.10" ∧
    increment_version "v1.0" = "v1.1" ∧
    increment_version "20260129" = "20260130" ∧
    increment_version "1.09" = "1.10" := by
  refine ⟨?_, ?_, by decide, by decide, by decide, by decide, by decide⟩
  · intro hnd
    have hnone : incLast (splitRuns s.data) = none := by
      apply (incLast_none _).mpr
      intro p hp
      by_contra hdig
      simp only [Bool.not_eq_false] at hdig
      cases p with
      | nil => simp [isDigitSeg] at hdig
      | cons c r =>
        have hc : c ∈ (splitRuns s.data).flatten :=
          List.mem_flatten.mpr ⟨c :: r, hp, List.mem_cons_self c r⟩
        rw [splitRuns_flatten] at hc
        have := hnd c hc
        simp only [isDigitSeg, List.all_cons, Bool.and_eq_true] at hdig
        rw [this] at hdig
        simp at hdig
    unfold increment_version
    rw [hnone, splitRuns_flatten]
  · intro hdig
    obtain ⟨c0, hc0mem, hc0⟩ := hdig
    cases hil : incLast (splitRuns s.data) with
    | none =>
      exfalso
      rw [← splitRuns_flatten s.data] at hc0mem
      obtain ⟨seg, hseg, hcseg⟩ := List.mem_flatten.mp hc0mem
      have hall := (incLast_none _).mp hil seg hseg
      rcases splitOk_cases (splitOk_splitRuns s.data) seg hseg with hnd | hd
      · simp only [nonDigitSeg, List.all_eq_true] at hnd
        have := hnd c0 hcseg
        rw [hc0] at this
        simp at this
      · rw [hall] at hd
        simp at hd
    | some r =>
      obtain ⟨l1, p, l2, hsplit, hdp, hafter, hres⟩ := incLast_some _ r hil
      refine ⟨l1.flatten, p, l2.flatten, ?_, hdp, ?_, ?_, ?_⟩
      · conv_lhs => rw [← splitRuns_flatten s.data]
        rw [hsplit]
        simp [List.flatten_append, List.append_assoc]
      · intro c hc
        obtain ⟨seg, hseg, hcseg⟩ := List.mem_flatten.mp hc
        have hsegs := hafter seg hseg
        have hsegmem : seg ∈ splitRuns s.data := by
          rw [hsplit]
          exact List.mem_append_right l1 (List.mem_cons_of_mem p hseg)
        rcases splitOk_cases (splitOk_splitRuns s.data) seg hsegmem with hnd | hd
        · simp only [nonDigitSeg, List.all_eq_true] at hnd
          have := hnd c hcseg
          simpa using this
        · rw [hsegs] at hd; simp at hd
      · intro c hc
        rcases List.eq_nil_or_concat l1 with hnil | ⟨l1x, n, hcat⟩
        · rw [hnil] at hc
          simp at hc
        · rw [List.concat_eq_append] at hcat
          have hsplit2 : splitRuns s.data = l1x ++ n :: p :: l2 := by
            rw [hsplit, hcat]
            simp
          have hso := splitOk_splitRuns s.data
          rw [hsplit2] at hso
          have hflat : l1.flatten = l1x.flatten ++ n := by
            rw [hcat]
            simp
          cases hl1x : l1x with
          | nil =>
            rw [hl1x] at hso
            simp only [List.nil_append, splitOk, Bool.and_eq_true] at hso
            rw [hflat, hl1x] at hc
            simp only [List.flatten_nil, List.nil_append] at hc
            have hcn := List.mem_of_getLast?_eq_some hc
            have hnd := hso.1
            simp only [nonDigitSeg, List.all_eq_true] at hnd
            simpa using hnd c hcn
          | cons u ut =>
            rw [hl1x] at hso
            simp only [List.cons_append, splitOk, Bool.and_eq_true] at hso
            have hadj := segsOk_adj ut _ true n p l2 hso.2 rfl hdp
            rw [hflat, List.getLast?_append_of_ne_nil _ hadj.2] at hc
            have hcn := List.mem_of_getLast?_eq_some hc
            have hnd := hadj.1
            simp only [nonDigitSeg, List.all_eq_true] at hnd
            simpa using hnd c hcn
      · unfold increment_version
        rw [hil, hres]
        simp [List.flatten_append, List.append_assoc]

/-- Witness for C8 at the digit-free input `"abc"`, discharging the
hypothesis of the unchanged-result conjunct. -/
theorem c8_increment_last_numeric_witness :
    increment_version "abc" = "abc" :=
  (c8_increment_last_numeric "abc").1 (by decide)

/-! ## Manager claims: listing failure, push preconditions, pull
resolution, per-file download failures -/

/-- C5: for every stage and package name, a listing-call error (any error
message) makes `list_versions` and `list_packages` return the empty
sequence; the error is swallowed, not propagated — both functions are total
and simply return `[]` in the error case. -/
theorem c5_listing_failure_empty (stage package_name e : String) :
    list_versions (.error e) stage package_name = [] ∧
    list_packages (.error e) stage = [] :=
  ⟨rfl, rfl⟩

/-- C2: `push` checks its preconditions in source order with the first
failure winning: a missing local path fails with PathNotFound and an
existing non-directory fails with NotADirectory, both with no collaborator
call at all; an already-existing `(package, version)` fails with
VersionImmutable after only the listing call; and in every failing case the
call trace contains no batched-upload call. -/
theorem c2_push_preconditions (listing : Except String (List FileInfo))
    (stage package_name version : String) :
    push listing stage package_name version .missing =
      ([], some .pathNotFound) ∧
    push listing stage package_name version .filePath =
      ([], some .notADirectory) ∧
    (∀ t, version_exists listing stage package_name version = true →
      push listing stage package_name version (.dirPath t) =
        ([.listFiles (package_base_path stage package_name)],
          some .versionImmutable)) ∧
    (∀ lp calls err,
      push listing stage package_name version lp = (calls, some err) →
      ∀ target fs, CollabCall.putBatch target fs ∉ calls) := by
  refine ⟨rfl, rfl, ?_, ?_⟩
  · intro t hex
    simp [push, hex]
  · intro lp calls err hp target fs hmem
    cases lp with
    | missing =>
      simp only [push] at hp
      simp only [Prod.mk.injEq] at hp
      rw [← hp.1] at hmem
      simp at hmem
    | filePath =>
      simp only [push] at hp
      simp only [Prod.mk.injEq] at hp
      rw [← hp.1] at hmem
      simp at hmem
    | dirPath t =>
      simp only [push] at hp
      by_cases hex : version_exists listing stage package_name version = true
      · rw [if_pos hex] at hp; simp only [Prod.mk.injEq] at hp
        rw [← hp.1] at hmem
        simp at hmem
      · rw [if_neg hex] at hp; simp only [Prod.mk.injEq] at hp
        have := hp.2
        simp at this

/-- Witness for C2 at a listing that already contains version `1.0.0`,
discharging the version-exists hypothesis and the failing-trace
hypothesis. -/
theorem c2_push_preconditions_witness :
    push exListing "@db.schema.test_stage" "my-package" "1.0.0"
        (.dirPath exTree) =
      ([.listFiles "@db.schema.test_stage/packages/my-package"],
        some .versionImmutable) ∧
    CollabCall.putBatch "x" [] ∉
      ([.listFiles "@db.schema.test_stage/packages/my-package"] :
        List CollabCall) :=
  ⟨(c2_push_preconditions exListing "@db.schema.test_stage" "my-package"
      "1.0.0").2.2.1 exTree (by decide),
    (c2_push_preconditions exListing "@db.schema.test_stage" "my-package"
      "1.0.0").2.2.2 (.dirPath exTree)
      [.listFiles "@db.schema.test_stage/packages/my-package"]
      .versionImmutable (by decide) "x" []⟩

/-- C3: when `pull` is called with the token `"latest"` (case-insensitive),
the version is resolved via `get_max_version`, failing with NoVersionsFound
when none exists; a non-latest version that does not satisfy
`version_exists` fails with VersionNotFound; and pulling `"latest"`
against versions `{1.0.0, 2.0.0}` operates on version `2.0.0`'s prefix. -/
theorem c3_pull_latest_resolution (listing : Except String (List FileInfo))
    (stage package_name version : String) :
    (toLowerStr version = "latest" →
      get_max_version listing stage package_name = none →
      pull_resolve listing stage package_name version =
        .error .noVersionsFound) ∧
    (toLowerStr version = "latest" →
      ∀ m, get_max_version listing stage package_name = some m →
        pull_resolve listing stage package_name version =
          (if version_exists listing stage package_name m then
            .ok (version_path_str stage package_name m)
          else .error .versionNotFound)) ∧
    (toLowerStr version ≠ "latest" →
      version_exists listing stage package_name version = false →
      pull_resolve listing stage package_name version =
        .error .versionNotFound) ∧
    pull_resolve exListing "@db.schema.test_stage" "my-package" "latest" =
      .ok "@db.schema.test_stage/packages/my-package/2.0.0" := by
  refine ⟨?_, ?_, ?_, by decide⟩
  · intro hl hm
    unfold pull_resolve
    rw [if_pos hl, hm]
  · intro hl m hm
    unfold pull_resolve
    rw [if_pos hl, hm]
  · intro hl hex
    unfold pull_resolve
    rw [if_neg hl, if_neg (by rw [hex]; simp)]

/-- Witness for C3: `"LATEST"` against an error listing (no versions)
fails with NoVersionsFound, and version `"9.9.9"` against the example
listing fails with VersionNotFound. -/
theorem c3_pull_latest_resolution_witness :
    pull_resolve (.error "down") "@s" "pkg" "LATEST" =
      .error .noVersionsFound ∧
    pull_resolve exListing "@db.schema.test_stage" "my-package" "9.9.9" =
      .error .versionNotFound :=
  ⟨(c3_pull_latest_resolution (.error "down") "@s" "pkg" "LATEST").1
      (by decide) (by decide),
    (c3_pull_latest_resolution exListing "@db.schema.test_stage"
      "my-package" "9.9.9").2.2.1 (by decide) (by decide)⟩

theorem foldl_pullStep_eq_map (oracle : String → DlResult)
    (stage_path : String) :
    ∀ (files : List FileInfo) (acc : List PullRec),
      files.foldl (pullStep oracle stage_path) acc =
        acc ++ (processedOf stage_path files).map
          (fun pr => dlRecord oracle pr.1 pr.2) := by
  intro files
  induction files with
  | nil => intro acc; simp [processedOf]
  | cons fi fs ih =>
    intro acc
    simp only [List.foldl_cons, processedOf, List.filterMap_cons]
    cases hit : pullItem stage_path fi with
    | none =>
      rw [show pullStep oracle stage_path acc fi = acc by
        unfold pullStep; rw [hit]]
      simpa [processedOf] using ih acc
    | some pr =>
      rw [show pullStep oracle stage_path acc fi =
          acc ++ [dlRecord oracle pr.1 pr.2] by
        unfold pullStep; rw [hit]]
      rw [List.map_cons]
      have := ih (acc ++ [dlRecord oracle pr.1 pr.2])
      simp only [processedOf] at this
      rw [this]
      simp

/-- C4: during pull, each listed file is processed independently: the
result list is exactly one record per processed file, computed from that
file's own download outcome alone, so a failed download is recorded as a
`"failed"` record carrying the error message while the remaining files are
still processed (the number of records does not depend on the outcomes),
and `pull` still returns its result list normally (as `.ok`, never
raising) even when every per-file download failed. -/
theorem c4_pull_per_file_failures (listing : Except String (List FileInfo))
    (files : List FileInfo) (oracle : String → DlResult)
    (stage package_name version sp : String) :
    get_directory_recursive (.ok files) oracle sp =
      (processedOf sp files).map (fun pr => dlRecord oracle pr.1 pr.2) ∧
    (∀ oracle2 : String → DlResult,
      (get_directory_recursive (.ok files) oracle sp).length =
        (get_directory_recursive (.ok files) oracle2 sp).length) ∧
    (∀ rel sfp msg, (rel, sfp) ∈ processedOf sp files →
      oracle sfp = .raises msg →
      (⟨String.mk rel, "failed", some msg⟩ : PullRec) ∈
        get_directory_recursive (.ok files) oracle sp) ∧
    (pull_resolve listing stage package_name version = .ok sp →
      pull listing (.ok files) oracle stage package_name version =
        .ok (get_directory_recursive (.ok files) oracle sp)) := by
  have hmain : ∀ orc : String → DlResult,
      get_directory_recursive (.ok files) orc sp =
        (processedOf sp files).map (fun pr => dlRecord orc pr.1 pr.2) := by
    intro orc
    simp only [get_directory_recursive]
    by_cases hf : files = []
    · rw [if_pos hf, hf]
      simp [processedOf]
    · rw [if_neg hf]
      simpa using foldl_pullStep_eq_map orc sp files []
  refine ⟨hmain oracle, ?_, ?_, ?_⟩
  · intro oracle2
    rw [hmain oracle, hmain oracle2]
    simp
  · intro rel sfp msg hmem hraise
    rw [hmain oracle]
    have : dlRecord oracle rel sfp =
        ⟨String.mk rel, "failed", some msg⟩ := by
      unfold dlRecord
      rw [hraise]
    rw [← this]
    exact List.mem_map_of_mem (fun pr => dlRecord oracle pr.1 pr.2) hmem
  · intro hres
    unfold pull
    rw [hres]

/-- Witness for C4: the example listing under the `2.0.0` prefix with an
oracle that fails every download still yields a full result list with the
failed record, and `pull` returns it as `.ok`. -/
theorem c4_pull_per_file_failures_witness :
    ((⟨"d.txt", "failed", some "boom"⟩ : PullRec) ∈
      get_directory_recursive
        (.ok [⟨"test_stage/packages/my-package/2.0.0/d.txt"⟩])
        (fun _ => .raises "boom")
        "@db.schema.test_stage/packages/my-package/2.0.0") ∧
    pull exListing (.ok [⟨"test_stage/packages/my-package/2.0.0/d.txt"⟩])
        (fun _ => .raises "boom") "@db.schema.test_stage" "my-package"
        "2.0.0" =
      .ok (get_directory_recursive
        (.ok [⟨"test_stage/packages/my-package/2.0.0/d.txt"⟩])
        (fun _ => .raises "boom")
        "@db.schema.test_stage/packages/my-package/2.0.0") :=
  ⟨(c4_pull_per_file_failures exListing
      [⟨"test_stage/packages/my-package/2.0.0/d.txt"⟩]
      (fun _ => .raises "boom") "@db.schema.test_stage" "my-package"
      "2.0.0" "@db.schema.test_stage/packages/my-package/2.0.0").2.2.1
      "d.txt".data
      "@db.schema.test_stage/packages/my-package/2.0.0/d.txt" "boom"
      (by decide) rfl,
    (c4_pull_per_file_failures exListing
      [⟨"test_stage/packages/my-package/2.0.0/d.txt"⟩]
      (fun _ => .raises "boom") "@db.schema.test_stage" "my-package"
      "2.0.0" "@db.schema.test_stage/packages/my-package/2.0.0").2.2.2
      (by decide)⟩

/-! ## Path and child lemmas for the upload drain -/

theorem childrenOf_mem {dirs : List DirPath} {p q : DirPath} :
    q ∈ childrenOf dirs p ↔ q ∈ dirs ∧ q ≠ [] ∧ q.dropLast = p := by
  unfold childrenOf
  simp [List.mem_filter]

theorem prefix_eq_of_le_length {p q : DirPath} (h : p <+: q)
    (hl : q.length ≤ p.length) : p = q :=
  h.sublist.eq_of_length_le hl

theorem length_lt_of_strict_prefix {p q : DirPath} (h : p <+: q)
    (hne : p ≠ q) : p.length < q.length := by
  rcases Nat.lt_or_ge p.length q.length with hlt | hge
  · exact hlt
  · exact absurd (prefix_eq_of_le_length h hge) hne

theorem prefix_dropLast_of_lt {p q : DirPath} (h : p <+: q)
    (hl : p.length < q.length) : p <+: q.dropLast := by
  obtain ⟨t, ht⟩ := h
  have htne : t ≠ [] := by
    intro h0
    rw [h0, List.append_nil] at ht
    rw [ht] at hl
    exact lt_irrefl _ hl
  rw [← ht, List.dropLast_append_of_ne_nil p htne]
  exact List.prefix_append p t.dropLast

theorem child_strict_prefix {p q : DirPath} (hq : q ≠ [])
    (hd : q.dropLast = p) : p <+: q ∧ p ≠ q := by
  constructor
  · rw [← hd]
    exact List.dropLast_prefix q
  · intro hpq
    have hlen : q.length - 1 = p.length := by
      rw [← hd, List.length_dropLast]
    rw [hpq] at hlen
    have hq1 : 1 ≤ q.length := by
      cases q with
      | nil => exact absurd rfl hq
      | cons a l => simp
    omega

theorem next_step_child {p r : DirPath} (h : p <+: r) (hne : p ≠ r) :
    ∃ c, (p ++ [c]) <+: r ∧ (p ++ [c]).dropLast = p ∧ p ++ [c] ≠ [] := by
  obtain ⟨t, ht⟩ := h
  cases t with
  | nil =>
    rw [List.append_nil] at ht
    exact absurd ht hne
  | cons c t2 =>
    refine ⟨c, ⟨t2, ?_⟩, List.dropLast_concat, by simp⟩
    rw [← ht]
    simp

theorem mem_of_prefix_closed {dirs : List DirPath}
    (hpc : ∀ p ∈ dirs, p ≠ [] → p.dropLast ∈ dirs) :
    ∀ (n : Nat) (r : DirPath), r ∈ dirs → ∀ q, q <+: r →
      r.length - q.length ≤ n → q ∈ dirs := by
  intro n
  induction n with
  | zero =>
    intro r hr q hq hd
    have := hq.sublist.length_le
    have hqr : q = r := prefix_eq_of_le_length hq (by omega)
    rw [hqr]
    exact hr
  | succ m ih =>
    intro r hr q hq hd
    by_cases hqr : q = r
    · rw [hqr]; exact hr
    · have hlt := length_lt_of_strict_prefix hq hqr
      have hrne : r ≠ [] := by
        intro h0
        rw [h0] at hlt
        simp at hlt
      have hdm : r.dropLast ∈ dirs := hpc r hr hrne
      have hq2 : q <+: r.dropLast := prefix_dropLast_of_lt hq hlt
      refine ih r.dropLast hdm q hq2 ?_
      rw [List.length_dropLast]
      omega

theorem mem_dirs_of_prefix {dirs : List DirPath}
    (hpc : ∀ p ∈ dirs, p ≠ [] → p.dropLast ∈ dirs)
    {r q : DirPath} (hr : r ∈ dirs) (hq : q <+: r) : q ∈ dirs :=
  mem_of_prefix_closed hpc (r.length - q.length) r hr q hq le_rfl

theorem insertByName_perm (a : DirPath) :
    ∀ l : List DirPath, List.Perm (insertByName a l) (a :: l) := by
  intro l
  induction l with
  | nil => rfl
  | cons b bs ih =>
    unfold insertByName
    split_ifs with h
    · exact ((ih.cons b).trans (List.Perm.swap a b bs))
    · rfl

theorem sortByName_perm : ∀ l : List DirPath, List.Perm (sortByName l) l := by
  intro l
  induction l with
  | nil => rfl
  | cons a as_ ih =>
    exact (insertByName_perm a (sortByName as_)).trans (ih.cons a)

theorem insertByDepth_perm (a : DirPath) :
    ∀ l : List DirPath, List.Perm (insertByDepth a l) (a :: l) := by
  intro l
  induction l with
  | nil => rfl
  | cons b bs ih =>
    unfold insertByDepth
    split_ifs with h
    · rfl
    · exact ((ih.cons b).trans (List.Perm.swap a b bs))

theorem sortByDepthDesc_perm : ∀ l : List DirPath, List.Perm (sortByDepthDesc l) l := by
  intro l
  induction l with
  | nil => rfl
  | cons a as_ ih =>
    exact (insertByDepth_perm a (sortByDepthDesc as_)).trans (ih.cons a)

theorem childrenOf_nodup {dirs : List DirPath} (h : dirs.Nodup)
    (p : DirPath) : (childrenOf dirs p).Nodup :=
  h.filter _

theorem child_length {p0 c : DirPath} (hne : c ≠ [])
    (hdl : c.dropLast = p0) : c.length = p0.length + 1 := by
  have := congrArg List.length hdl
  rw [List.length_dropLast] at this
  have h1 : 1 ≤ c.length := by
    cases c with
    | nil => exact absurd rfl hne
    | cons a l => simp
  omega

/-- Main invariant lemma for the BFS of `_find_deepest_directories`: with a
queue of pairwise-incomparable unvisited directories whose subtrees lie in
`remaining`, the BFS appends exactly the leaves below the queue, without
duplicates, and every directory below a queued directory ends up covered by
a collected leaf below it. -/
theorem bfsAux_spec (dirs : List DirPath) (hdnd : dirs.Nodup)
    (hdpc : ∀ p ∈ dirs, p ≠ [] → p.dropLast ∈ dirs) :
    ∀ (fuel : Nat) (queue acc remaining : List DirPath),
    (∀ q ∈ queue, q ∈ dirs) →
    (acc ++ queue).Nodup →
    List.Pairwise (fun a b => ¬ a <+: b ∧ ¬ b <+: a) queue →
    (∀ a ∈ acc, ∀ q ∈ queue, ¬ q <+: a) →
    remaining.Nodup →
    (∀ q ∈ queue, ∀ p ∈ dirs, q <+: p → p ∈ remaining) →
    remaining.length ≤ fuel →
    ∃ extra,
      bfsAux dirs fuel queue acc = acc ++ extra ∧
      (∀ x ∈ extra, x ∈ dirs ∧ childrenOf dirs x = []) ∧
      (acc ++ extra).Nodup ∧
      (∀ q ∈ queue, ∀ p ∈ dirs, q <+: p → ∃ a ∈ extra, p <+: a) := by
  intro fuel
  induction fuel with
  | zero =>
    intro queue acc remaining h1 h2 h3 h4 h5 h6 h7
    have hqe : queue = [] := by
      cases hq : queue with
      | nil => rfl
      | cons q qs =>
        exfalso
        have hqmem : q ∈ queue := by rw [hq]; exact List.mem_cons_self q qs
        have hqd : q ∈ remaining :=
          h6 q hqmem q (h1 q hqmem) (List.prefix_refl q)
        have hre : remaining = [] :=
          List.length_eq_zero.mp (Nat.le_zero.mp h7)
        rw [hre] at hqd
        simp at hqd
    subst hqe
    exact ⟨[], by simp [bfsAux], by simp, by simpa using h2, by simp⟩
  | succ m ih =>
    intro queue acc remaining h1 h2 h3 h4 h5 h6 h7
    cases hq : queue with
    | nil =>
      subst hq
      exact ⟨[], by simp [bfsAux], by simp, by simpa using h2, by simp⟩
    | cons p0 rest =>
      subst hq
      have hp0mem : p0 ∈ (p0 :: rest) := List.mem_cons_self p0 rest
      have hp0dirs : p0 ∈ dirs := h1 p0 hp0mem
      have hhead := (List.pairwise_cons.mp h3).1
      have htail := (List.pairwise_cons.mp h3).2
      have hdisj : ∀ a ∈ acc, a ∉ (p0 :: rest) :=
        (List.nodup_append.mp h2).2.2
      have hp0notacc : p0 ∉ acc := by
        intro hmem
        exact hdisj p0 hmem hp0mem
      have hp0rem : p0 ∈ remaining :=
        h6 p0 hp0mem p0 hp0dirs (List.prefix_refl p0)
      have hremlen : (remaining.erase p0).length ≤ m := by
        rw [List.length_erase_of_mem hp0rem]
        omega
      have h5' : (remaining.erase p0).Nodup := h5.erase p0
      simp only [bfsAux]
      by_cases hcse : (sortByName (childrenOf dirs p0)).isEmpty = true
      · -- leaf case
        have hchild : childrenOf dirs p0 = [] := by
          have hperm := sortByName_perm (childrenOf dirs p0)
          rw [List.isEmpty_iff] at hcse
          rw [hcse] at hperm
          exact (List.Perm.nil_eq hperm).symm
        rw [if_pos hcse, if_neg hp0notacc]
        have h6' : ∀ q ∈ rest, ∀ p ∈ dirs, q <+: p →
            p ∈ remaining.erase p0 := by
          intro q hqr p hp hqp
          have hpmem := h6 q (List.mem_cons_of_mem p0 hqr) p hp hqp
          have hpne : p ≠ p0 := by
            intro h0
            rw [h0] at hqp
            exact (hhead q hqr).2 hqp
          exact (List.mem_erase_of_ne hpne).mpr hpmem
        obtain ⟨extra', heq, hex1, hex2, hex3⟩ :=
          ih rest (acc ++ [p0]) (remaining.erase p0)
            (fun q hq => h1 q (List.mem_cons_of_mem p0 hq))
            (by
              have : acc ++ [p0] ++ rest = acc ++ p0 :: rest := by simp
              rw [this]
              exact h2)
            htail
            (by
              intro a ha q hqr
              rcases List.mem_append.mp ha with haa | hap
              · exact h4 a haa q (List.mem_cons_of_mem p0 hqr)
              · rw [List.mem_singleton.mp hap]
                exact (hhead q hqr).2)
            h5' h6' hremlen
        refine ⟨p0 :: extra', ?_, ?_, ?_, ?_⟩
        · rw [heq]
          simp
        · intro x hx
          rcases List.mem_cons.mp hx with hx0 | hx1
          · rw [hx0]; exact ⟨hp0dirs, hchild⟩
          · exact hex1 x hx1
        · have : acc ++ p0 :: extra' = acc ++ [p0] ++ extra' := by simp
          rw [this]
          exact hex2
        · intro q hqm p hp hqp
          rcases List.mem_cons.mp hqm with hq0 | hqr
          · rw [hq0] at hqp
            by_cases hpp0 : p = p0
            · exact ⟨p0, List.mem_cons_self p0 extra', by rw [hpp0]⟩
            · exfalso
              obtain ⟨c, hcpre, hcdl, hcne⟩ :=
                next_step_child hqp (fun h0 => hpp0 h0.symm)
              have hcmem : p0 ++ [c] ∈ dirs :=
                mem_dirs_of_prefix hdpc hp hcpre
              have : p0 ++ [c] ∈ childrenOf dirs p0 :=
                childrenOf_mem.mpr ⟨hcmem, hcne, hcdl⟩
              rw [hchild] at this
              simp at this
          · obtain ⟨a, haex, hpa⟩ := hex3 q hqr p hp hqp
            exact ⟨a, List.mem_cons_of_mem p0 haex, hpa⟩
      · -- internal-node case
        rw [if_neg hcse]
        have hcsne : sortByName (childrenOf dirs p0) ≠ [] := by
          intro h0
          rw [h0] at hcse
          simp at hcse
        have hcperm := sortByName_perm (childrenOf dirs p0)
        have hcs_mem : ∀ c ∈ sortByName (childrenOf dirs p0),
            c ∈ dirs ∧ c ≠ [] ∧ c.dropLast = p0 := by
          intro c hc
          exact childrenOf_mem.mp (hcperm.mem_iff.mp hc)
        have hcs_strict : ∀ c ∈ sortByName (childrenOf dirs p0),
            p0 <+: c ∧ p0 ≠ c := by
          intro c hc
          obtain ⟨_, hcne, hcdl⟩ := hcs_mem c hc
          exact child_strict_prefix hcne hcdl
        have hcs_notacc : ∀ c ∈ sortByName (childrenOf dirs p0), c ∉ acc := by
          intro c hc hmem
          exact h4 c hmem p0 hp0mem (hcs_strict c hc).1
        have hfilter : (sortByName (childrenOf dirs p0)).filter
            (fun c => c ∉ acc) = sortByName (childrenOf dirs p0) := by
          rw [List.filter_eq_self]
          intro c hc
          simpa using hcs_notacc c hc
        rw [hfilter]
        have hcs_notrest : ∀ c ∈ sortByName (childrenOf dirs p0),
            c ∉ rest := by
          intro c hc hmem
          exact (hhead c hmem).1 (hcs_strict c hc).1
        have hcs_nodup : (sortByName (childrenOf dirs p0)).Nodup :=
          (hcperm.nodup_iff).mpr (childrenOf_nodup hdnd p0)
        have hcross : ∀ r ∈ rest, ∀ c ∈ sortByName (childrenOf dirs p0),
            ¬ r <+: c ∧ ¬ c <+: r := by
          intro r hr c hc
          obtain ⟨hcd, hcne, hcdl⟩ := hcs_mem c hc
          obtain ⟨hp0c, hp0cne⟩ := hcs_strict c hc
          constructor
          · intro hrc
            by_cases hrceq : r = c
            · rw [hrceq] at hr
              exact hcs_notrest c hc hr
            · have hlt := length_lt_of_strict_prefix hrc hrceq
              have hrp0 : r <+: p0 := by
                rw [← hcdl]
                exact prefix_dropLast_of_lt hrc hlt
              exact (hhead r hr).2 hrp0
          · intro hcr
            exact (hhead r hr).1 (hp0c.trans hcr)
        have h1' : ∀ q ∈ rest ++ sortByName (childrenOf dirs p0),
            q ∈ dirs := by
          intro q hq
          rcases List.mem_append.mp hq with hq1 | hq2
          · exact h1 q (List.mem_cons_of_mem p0 hq1)
          · exact (hcs_mem q hq2).1
        have h2' : (acc ++ (rest ++ sortByName (childrenOf dirs p0))).Nodup := by
          rw [List.nodup_append] at h2 ⊢
          refine ⟨h2.1, ?_, ?_⟩
          · rw [List.nodup_append]
            refine ⟨(List.nodup_cons.mp h2.2.1).2, hcs_nodup, ?_⟩
            intro r hr hc
            exact hcs_notrest r hc hr
          · intro a ha hmem
            rcases List.mem_append.mp hmem with hm1 | hm2
            · exact h2.2.2 ha (List.mem_cons_of_mem p0 hm1)
            · exact hcs_notacc a hm2 ha
        have h3' : List.Pairwise (fun a b => ¬ a <+: b ∧ ¬ b <+: a)
            (rest ++ sortByName (childrenOf dirs p0)) := by
          rw [List.pairwise_append]
          refine ⟨htail, ?_, hcross⟩
          have hforall : ∀ c1 ∈ sortByName (childrenOf dirs p0),
              ∀ c2 ∈ sortByName (childrenOf dirs p0), c1 ≠ c2 →
              ¬ c1 <+: c2 ∧ ¬ c2 <+: c1 := by
            intro c1 hc1 c2 hc2 hne
            obtain ⟨_, hc1ne, hc1dl⟩ := hcs_mem c1 hc1
            obtain ⟨_, hc2ne, hc2dl⟩ := hcs_mem c2 hc2
            have hl1 := child_length hc1ne hc1dl
            have hl2 := child_length hc2ne hc2dl
            constructor
            · intro hpre
              exact hne (prefix_eq_of_le_length hpre (by omega))
            · intro hpre
              exact hne (prefix_eq_of_le_length hpre (by omega)).symm
          exact List.Pairwise.imp_of_mem
            (fun {a b} ha hb hne => hforall a ha b hb hne) hcs_nodup
        have h4' : ∀ a ∈ acc, ∀ q ∈ rest ++ sortByName (childrenOf dirs p0),
            ¬ q <+: a := by
          intro a ha q hq hqa
          rcases List.mem_append.mp hq with hq1 | hq2
          · exact h4 a ha q (List.mem_cons_of_mem p0 hq1) hqa
          · exact h4 a ha p0 hp0mem ((hcs_strict q hq2).1.trans hqa)
        have h6' : ∀ q ∈ rest ++ sortByName (childrenOf dirs p0),
            ∀ p ∈ dirs, q <+: p → p ∈ remaining.erase p0 := by
          intro q hq p hp hqp
          rcases List.mem_append.mp hq with hq1 | hq2
          · have hpmem := h6 q (List.mem_cons_of_mem p0 hq1) p hp hqp
            have hpne : p ≠ p0 := by
              intro h0
              rw [h0] at hqp
              exact (hhead q hq1).2 hqp
            exact (List.mem_erase_of_ne hpne).mpr hpmem
          · obtain ⟨hqd, hqne, hqdl⟩ := hcs_mem q hq2
            have hp0q := (hcs_strict q hq2).1
            have hpmem := h6 p0 hp0mem p hp (hp0q.trans hqp)
            have hpne : p ≠ p0 := by
              intro h0
              have hlq := child_length hqne hqdl
              have := hqp.sublist.length_le
              rw [h0] at this
              omega
            exact (List.mem_erase_of_ne hpne).mpr hpmem
        obtain ⟨extra', heq, hex1, hex2, hex3⟩ :=
          ih (rest ++ sortByName (childrenOf dirs p0)) acc
            (remaining.erase p0) h1' h2' h3' h4' h5' h6' hremlen
        refine ⟨extra', heq, hex1, hex2, ?_⟩
        intro q hqm p hp hqp
        rcases List.mem_cons.mp hqm with hq0 | hqr
        · rw [hq0] at hqp
          by_cases hpp0 : p = p0
          · obtain ⟨c, hcmemcs⟩ : ∃ c, c ∈ sortByName (childrenOf dirs p0) := by
              cases hcs2 : sortByName (childrenOf dirs p0) with
              | nil => exact absurd hcs2 hcsne
              | cons c cs2 => exact ⟨c, List.mem_cons_self c cs2⟩
            obtain ⟨a, haex, hca⟩ := hex3 c (List.mem_append_right rest hcmemcs)
              c (hcs_mem c hcmemcs).1 (List.prefix_refl c)
            refine ⟨a, haex, ?_⟩
            rw [hpp0]
            exact (hcs_strict c hcmemcs).1.trans hca
          · obtain ⟨c, hcpre, hcdl, hcne⟩ :=
              next_step_child hqp (fun h0 => hpp0 h0.symm)
            have hcmem : p0 ++ [c] ∈ dirs :=
              mem_dirs_of_prefix hdpc hp hcpre
            have hccs : p0 ++ [c] ∈ sortByName (childrenOf dirs p0) :=
              hcperm.mem_iff.mpr (childrenOf_mem.mpr ⟨hcmem, hcne, hcdl⟩)
            exact hex3 (p0 ++ [c]) (List.mem_append_right rest hccs) p hp hcpre
        · exact hex3 q (List.mem_append_left _ hqr) p hp hqp

theorem singleton_root_of_all_root {l : List DirPath} (hnd : l.Nodup)
    (ha : ∀ x ∈ l, x = ([] : DirPath)) (hm : ([] : DirPath) ∈ l) :
    l = [[]] := by
  cases l with
  | nil => simp at hm
  | cons x xs =>
    have hx : x = [] := ha x (List.mem_cons_self x xs)
    subst hx
    cases xs with
    | nil => rfl
    | cons y ys =>
      exfalso
      have hy : y = [] := ha y (List.mem_cons_of_mem _ (List.mem_cons_self y ys))
      have := (List.nodup_cons.mp hnd).1
      rw [← hy] at this
      exact this (List.mem_cons_self y ys)

/-- Properties of `_find_deepest_directories` on a well-formed tree: it
returns a duplicate-free list of leaf directories covering every directory
(each directory has a collected leaf at or below it); the root is returned
only when it is the sole directory. -/
theorem find_deepest_directories_spec (T : LocalTree) (hwf : T.WF) :
    (∀ q ∈ find_deepest_directories T,
      q ∈ T.dirs ∧ childrenOf T.dirs q = []) ∧
    (find_deepest_directories T).Nodup ∧
    (∀ p ∈ T.dirs, ∃ q ∈ find_deepest_directories T, p <+: q) ∧
    ([] ∈ find_deepest_directories T → find_deepest_directories T = [[]]) ∧
    find_deepest_directories T ≠ [] := by
  obtain ⟨hnd, hroot, hpc, _⟩ := hwf
  obtain ⟨extra, heq, hex1, hex2, hex3⟩ :=
    bfsAux_spec T.dirs hnd hpc T.dirs.length [[]] [] T.dirs
      (by intro q hq; rw [List.mem_singleton.mp hq]; exact hroot)
      (by simp)
      (by simp)
      (by simp)
      hnd
      (by intro q hq p hp _; exact hp)
      le_rfl
  rw [List.nil_append] at heq
  have hperm : List.Perm (find_deepest_directories T) extra := by
    unfold find_deepest_directories
    rw [heq]
    exact sortByDepthDesc_perm extra
  rw [List.nil_append] at hex2
  have hcover : ∀ p ∈ T.dirs, ∃ q ∈ find_deepest_directories T, p <+: q := by
    intro p hp
    obtain ⟨a, haex, hpa⟩ :=
      hex3 [] (List.mem_singleton_self []) p hp List.nil_prefix
    exact ⟨a, hperm.mem_iff.mpr haex, hpa⟩
  have hmemfdd : ∀ q ∈ find_deepest_directories T,
      q ∈ T.dirs ∧ childrenOf T.dirs q = [] := by
    intro q hq
    exact hex1 q (hperm.mem_iff.mp hq)
  refine ⟨hmemfdd, hperm.nodup_iff.mpr hex2, hcover, ?_, ?_⟩
  · intro hmem
    have hallroot : ∀ p ∈ T.dirs, p = [] := by
      intro p hp
      by_contra hpne
      obtain ⟨c, hcpre, hcdl, hcne⟩ :=
        next_step_child List.nil_prefix (fun h0 => hpne h0.symm)
      have hcmem : [] ++ [c] ∈ T.dirs := mem_dirs_of_prefix hpc hp hcpre
      have hchild : [] ++ [c] ∈ childrenOf T.dirs [] :=
        childrenOf_mem.mpr ⟨hcmem, hcne, hcdl⟩
      rw [(hmemfdd [] hmem).2] at hchild
      simp at hchild
    exact singleton_root_of_all_root (hperm.nodup_iff.mpr hex2)
      (fun x hx => hallroot x (hmemfdd x hx).1) hmem
  · intro h0
    obtain ⟨q, hq, _⟩ := hcover [] hroot
    rw [h0] at hq
    simp at hq

theorem length_filter_lt_of_mem {l : List DirPath} {pred : DirPath → Bool}
    {d : DirPath} (hd : d ∈ l) (hpd : pred d = false) :
    (l.filter pred).length < l.length := by
  induction l with
  | nil => simp at hd
  | cons a as_ ih =>
    rcases List.mem_cons.mp hd with hda | hdm
    · rw [← hda, List.filter_cons, hpd]
      have := List.length_filter_le pred as_
      simp
      omega
    · rw [List.filter_cons]
      by_cases hpa : pred a = true
      · rw [if_pos hpa]
        have := ih hdm
        simp
        omega
      · rw [if_neg hpa]
        have := ih hdm
        simp
        omega

/-- Main invariant lemma for the drain loop of `_put_directory_recursive`:
with a queue of pending leaf directories covering every non-root directory
of the remaining scratch tree, the loop issues exactly one batched upload
per remaining directory that has files, each batch holding exactly that
directory's direct files, and no batch is ever followed by a batch for one
of its subdirectories. -/
theorem runPut_spec (T : LocalTree) :
    ∀ (fuel : Nat) (dirs queue : List DirPath),
    dirs.Nodup →
    (∀ p ∈ dirs, p ≠ [] → p.dropLast ∈ dirs) →
    [] ∈ dirs →
    (∀ q ∈ queue, q ∈ dirs) →
    queue.Nodup →
    (∀ q ∈ queue, ∀ r ∈ dirs, q <+: r → q = r) →
    (∀ p ∈ dirs, p ≠ [] → ∃ q ∈ queue, p <+: q) →
    ([] ∈ queue → queue = [[]]) →
    queue ≠ [] →
    2 * dirs.length + queue.length ≤ fuel →
    (∀ p, ((runPut T fuel dirs queue).map Batch.dir).count p =
      if p ∈ dirs ∧ filesAt T p ≠ [] then 1 else 0) ∧
    (∀ b ∈ runPut T fuel dirs queue,
      b.dir ∈ dirs ∧ b.files = filesAt T b.dir) ∧
    (runPut T fuel dirs queue).Pairwise (fun b1 b2 => ¬ b1.dir <+: b2.dir) := by
  intro fuel
  induction fuel with
  | zero =>
    intro dirs queue hP1 hP2 hP3 hP4 hP5 hP6 hP7 hP8 hP9 hfuel
    exfalso
    have : 0 < queue.length := List.length_pos.mpr hP9
    omega
  | succ m ih =>
    intro dirs queue hP1 hP2 hP3 hP4 hP5 hP6 hP7 hP8 hP9 hfuel
    cases hq : queue with
    | nil => exact absurd hq hP9
    | cons d rest =>
      subst hq
      have hskip : ¬ (d = [] ∧ rest ≠ []) := by
        rintro ⟨hd0, hrne⟩
        have hqeq : (d :: rest) = [[]] :=
          hP8 (by rw [hd0]; exact List.mem_cons_self _ _)
        exact hrne (List.cons_eq_cons.mp hqeq).2
      simp only [runPut]
      rw [if_neg hskip]
      have hddirs : d ∈ dirs := hP4 d (List.mem_cons_self d rest)
      have hdnotrest : d ∉ rest := (List.nodup_cons.mp hP5).1
      have hrestnodup : rest.Nodup := (List.nodup_cons.mp hP5).2
      by_cases hd0 : d = []
      · -- root: queue and dirs are both exactly the root
        have hqeq : (d :: rest) = [[]] :=
          hP8 (by rw [hd0]; exact List.mem_cons_self _ _)
        have hrest0 : rest = [] := (List.cons_eq_cons.mp hqeq).2
        subst hd0
        subst hrest0
        have hall : ∀ p ∈ dirs, p = [] := by
          intro p hp
          by_contra hpne
          obtain ⟨q, hqm, hpq⟩ := hP7 p hp hpne
          rw [List.mem_singleton.mp hqm] at hpq
          have hlen := hpq.sublist.length_le
          simp only [List.length_nil, Nat.le_zero, List.length_eq_zero] at hlen
          exact hpne hlen
        have hdirseq : dirs = [[]] := singleton_root_of_all_root hP1 hall hP3
        subst hdirseq
        rw [if_pos rfl]
        by_cases hfs : filesAt T [] = []
        · have hbatch : (if filesAt T [] ≠ [] ∨ childrenOf [[]] [] ≠ [] then
              [Batch.mk [] (filesAt T [])] else []) = [] := by
            rw [if_neg]
            rintro (h | h)
            · exact h hfs
            · exact h rfl
          rw [hbatch]
          refine ⟨?_, by simp, by simp⟩
          intro p
          simp only [List.map_nil, List.count_nil]
          rw [if_neg]
          rintro ⟨hpm, hpf⟩
          rw [List.mem_singleton.mp hpm] at hpf
          exact hpf hfs
        · have hbatch : (if filesAt T [] ≠ [] ∨ childrenOf [[]] [] ≠ [] then
              [Batch.mk [] (filesAt T [])] else []) =
              [Batch.mk [] (filesAt T [])] := if_pos (Or.inl hfs)
          rw [hbatch]
          refine ⟨?_, ?_, List.pairwise_singleton _ _⟩
          · intro p
            by_cases hp0 : p = []
            · subst hp0
              rw [if_pos ⟨List.mem_singleton_self [], hfs⟩]
              simp
            · rw [if_neg (fun hc => hp0 (List.mem_singleton.mp hc.1))]
              simp only [List.map_cons, List.map_nil, List.count_singleton,
                beq_iff_eq]
              rw [if_neg (fun h => hp0 h.symm)]
          · intro b hb
            rw [List.mem_singleton.mp hb]
            exact ⟨List.mem_singleton_self [], rfl⟩
      · -- non-root directory: it is a leaf, gets uploaded if it has files,
        -- and is removed before the recursive call
        rw [if_neg hd0]
        have hleaf : childrenOf dirs d = [] := by
          cases hch : childrenOf dirs d with
          | nil => rfl
          | cons q qs =>
            exfalso
            have hqm : q ∈ childrenOf dirs d := by
              rw [hch]; exact List.mem_cons_self q qs
            obtain ⟨hqd, hqne, hqdl⟩ := childrenOf_mem.mp hqm
            obtain ⟨hdq, hdqne⟩ := child_strict_prefix hqne hqdl
            exact hdqne (hP6 d (List.mem_cons_self d rest) q hqd hdq)
        have hbatch : (if filesAt T d ≠ [] ∨ childrenOf dirs d ≠ [] then
            [Batch.mk d (filesAt T d)] else []) =
            (if filesAt T d ≠ [] then [Batch.mk d (filesAt T d)] else []) := by
          by_cases hfs : filesAt T d = []
          · rw [if_neg (by rw [hleaf]; simp [hfs]), if_neg (fun h => h hfs)]
          · rw [if_pos (Or.inl hfs), if_pos hfs]
        rw [hbatch]
        have hd1 : 1 ≤ d.length := by
          cases hdc : d with
          | nil => exact absurd hdc hd0
          | cons a l => simp
        have hpardirs : d.dropLast ∈ dirs := hP2 d hddirs hd0
        have hparlen : d.dropLast.length = d.length - 1 := List.length_dropLast d
        have hdirs2mem : ∀ p, p ∈ dirs.filter (fun q => ¬ d <+: q) ↔
            p ∈ dirs ∧ p ≠ d := by
          intro p
          rw [List.mem_filter]
          simp only [decide_not, Bool.not_eq_true', decide_eq_false_iff_not]
          constructor
          · rintro ⟨hp, hnp⟩
            exact ⟨hp, fun h0 => hnp (h0 ▸ List.prefix_refl d)⟩
          · rintro ⟨hp, hne⟩
            exact ⟨hp, fun hpre => hne (hP6 d (List.mem_cons_self d rest)
              p hp hpre).symm⟩
        have hP1' : (dirs.filter (fun q => ¬ d <+: q)).Nodup := hP1.filter _
        have hP2' : ∀ p ∈ dirs.filter (fun q => ¬ d <+: q), p ≠ [] →
            p.dropLast ∈ dirs.filter (fun q => ¬ d <+: q) := by
          intro p hp hpne
          obtain ⟨hpd, hpned⟩ := (hdirs2mem p).mp hp
          refine (hdirs2mem p.dropLast).mpr ⟨hP2 p hpd hpne, ?_⟩
          intro h0
          have hddp : d <+: p := h0 ▸ List.dropLast_prefix p
          exact hpned (hP6 d (List.mem_cons_self d rest) p hpd hddp).symm
        have hP3' : [] ∈ dirs.filter (fun q => ¬ d <+: q) :=
          (hdirs2mem []).mpr ⟨hP3, fun h0 => hd0 h0.symm⟩
        have hrestdirs2 : ∀ q ∈ rest, q ∈ dirs.filter (fun q => ¬ d <+: q) := by
          intro q hqr
          refine (hdirs2mem q).mpr ⟨hP4 q (List.mem_cons_of_mem d hqr), ?_⟩
          intro h0
          rw [h0] at hqr
          exact hdnotrest hqr
        have hleafrest : ∀ q ∈ rest, ∀ r ∈ dirs.filter (fun q => ¬ d <+: q),
            q <+: r → q = r := by
          intro q hqr r hr hqrp
          exact hP6 q (List.mem_cons_of_mem d hqr) r ((hdirs2mem r).mp hr).1 hqrp
        have hrest_root : [] ∉ rest := by
          intro hmem
          have hqeq : (d :: rest) = [[]] := hP8 (List.mem_cons_of_mem d hmem)
          exact hd0 (List.cons_eq_cons.mp hqeq).1
        have hlen2 : (dirs.filter (fun q => ¬ d <+: q)).length < dirs.length :=
          length_filter_lt_of_mem hddirs (by simp [List.prefix_refl])
        have hfinish : ∀ queue2 : List DirPath,
            (∀ q ∈ queue2, q ∈ dirs.filter (fun q => ¬ d <+: q)) →
            queue2.Nodup →
            (∀ q ∈ queue2, ∀ r ∈ dirs.filter (fun q => ¬ d <+: q),
              q <+: r → q = r) →
            (∀ p ∈ dirs.filter (fun q => ¬ d <+: q), p ≠ [] →
              ∃ q ∈ queue2, p <+: q) →
            ([] ∈ queue2 → queue2 = [[]]) →
            queue2 ≠ [] →
            2 * (dirs.filter (fun q => ¬ d <+: q)).length + queue2.length ≤ m →
            (∀ p, (((if filesAt T d ≠ [] then [Batch.mk d (filesAt T d)]
                else []) ++
                runPut T m (dirs.filter (fun q => ¬ d <+: q)) queue2).map
                  Batch.dir).count p =
              if p ∈ dirs ∧ filesAt T p ≠ [] then 1 else 0) ∧
            (∀ b ∈ (if filesAt T d ≠ [] then [Batch.mk d (filesAt T d)]
                else []) ++
                runPut T m (dirs.filter (fun q => ¬ d <+: q)) queue2,
              b.dir ∈ dirs ∧ b.files = filesAt T b.dir) ∧
            ((if filesAt T d ≠ [] then [Batch.mk d (filesAt T d)] else []) ++
              runPut T m (dirs.filter (fun q => ¬ d <+: q)) queue2).Pairwise
                (fun b1 b2 => ¬ b1.dir <+: b2.dir) := by
          intro queue2 hQ4 hQ5 hQ6 hQ7 hQ8 hQ9 hQfuel
          obtain ⟨hcnt, hmemb, hpair⟩ :=
            ih (dirs.filter (fun q => ¬ d <+: q)) queue2
              hP1' hP2' hP3' hQ4 hQ5 hQ6 hQ7 hQ8 hQ9 hQfuel
          refine ⟨?_, ?_, ?_⟩
          · intro p
            rw [List.map_append, List.count_append]
            by_cases hpd : p = d
            · subst hpd
              have hc0 : ((runPut T m (dirs.filter (fun q => ¬ p <+: q))
                  queue2).map Batch.dir).count p = 0 := by
                rw [hcnt p, if_neg]
                rintro ⟨hmem2, _⟩
                exact ((hdirs2mem p).mp hmem2).2 rfl
              rw [hc0]
              by_cases hfs : filesAt T p = []
              · rw [if_neg (fun h => h hfs), if_neg (fun hc => hc.2 hfs)]
                simp
              · rw [if_pos hfs, if_pos ⟨hddirs, hfs⟩]
                simp
            · have hb0 : (((if filesAt T d ≠ [] then
                  [Batch.mk d (filesAt T d)] else []) : List Batch).map
                    Batch.dir).count p = 0 := by
                by_cases hfs : filesAt T d = []
                · rw [if_neg (fun h => h hfs)]
                  simp
                · rw [if_pos hfs]
                  simp only [List.map_cons, List.map_nil, List.count_singleton,
                    beq_iff_eq]
                  rw [if_neg (fun h => hpd h.symm)]
              rw [hb0, hcnt p]
              have hiff : (p ∈ dirs.filter (fun q => ¬ d <+: q) ∧
                  filesAt T p ≠ []) ↔ (p ∈ dirs ∧ filesAt T p ≠ []) := by
                rw [hdirs2mem p]
                constructor
                · rintro ⟨⟨h1, _⟩, h2⟩
                  exact ⟨h1, h2⟩
                · rintro ⟨h1, h2⟩
                  exact ⟨⟨h1, hpd⟩, h2⟩
              rw [if_congr hiff rfl rfl]
              simp
          · intro b hb
            rcases List.mem_append.mp hb with hb1 | hb2
            · by_cases hfs : filesAt T d = []
              · rw [if_neg (fun h => h hfs)] at hb1
                simp at hb1
              · rw [if_pos hfs] at hb1
                rw [List.mem_singleton.mp hb1]
                exact ⟨hddirs, rfl⟩
            · obtain ⟨hbm, hbf⟩ := hmemb b hb2
              exact ⟨((hdirs2mem b.dir).mp hbm).1, hbf⟩
          · rw [List.pairwise_append]
            refine ⟨?_, hpair, ?_⟩
            · by_cases hfs : filesAt T d = []
              · rw [if_neg (fun h => h hfs)]
                exact List.Pairwise.nil
              · rw [if_pos hfs]
                exact List.pairwise_singleton _ _
            · intro b1 hb1 b2 hb2
              have hb1d : b1.dir = d := by
                by_cases hfs : filesAt T d = []
                · rw [if_neg (fun h => h hfs)] at hb1
                  simp at hb1
                · rw [if_pos hfs] at hb1
                  rw [List.mem_singleton.mp hb1]
              rw [hb1d]
              obtain ⟨hbm, _⟩ := hmemb b2 hb2
              have := (List.mem_filter.mp hbm).2
              simpa using this
        by_cases hcond : d.dropLast ∉ rest ∧ ¬ ∃ e ∈ rest, d.dropLast <+: e
        · -- the parent directory is enqueued at the back
          rw [if_pos hcond]
          refine hfinish (rest ++ [d.dropLast]) ?_ ?_ ?_ ?_ ?_ (by simp) ?_
          · intro q hqm
            rcases List.mem_append.mp hqm with hq1 | hq2
            · exact hrestdirs2 q hq1
            · rw [List.mem_singleton.mp hq2]
              exact (hdirs2mem d.dropLast).mpr ⟨hpardirs, by
                intro h0
                rw [h0] at hparlen
                omega⟩
          · rw [List.nodup_append]
            refine ⟨hrestnodup, List.nodup_singleton _, ?_⟩
            intro a ha hmem
            rw [List.mem_singleton.mp hmem] at ha
            exact hcond.1 ha
          · intro q hqm r hr hqrp
            rcases List.mem_append.mp hqm with hq1 | hq2
            · exact hleafrest q hq1 r hr hqrp
            · rw [List.mem_singleton.mp hq2] at hqrp ⊢
              by_contra hne
              obtain ⟨hrd, hrned⟩ := (hdirs2mem r).mp hr
              have hrne : r ≠ [] := by
                intro h0
                subst h0
                exact hne (List.prefix_nil.mp hqrp)
              obtain ⟨q2, hq2m, hrq2⟩ := hP7 r hrd hrne
              rcases List.mem_cons.mp hq2m with hq2d | hq2rest
              · rw [hq2d] at hrq2
                have hlr := length_lt_of_strict_prefix hqrp hne
                have hle := hrq2.sublist.length_le
                exact hrned (prefix_eq_of_le_length hrq2 (by omega))
              · exact hcond.2 ⟨q2, hq2rest, hqrp.trans hrq2⟩
          · intro p hp hpne
            obtain ⟨hpd, hpned⟩ := (hdirs2mem p).mp hp
            obtain ⟨q, hqm, hpq⟩ := hP7 p hpd hpne
            rcases List.mem_cons.mp hqm with hqd | hqrest
            · rw [hqd] at hpq
              have hlt := length_lt_of_strict_prefix hpq hpned
              exact ⟨d.dropLast, List.mem_append_right rest
                (List.mem_singleton_self _),
                prefix_dropLast_of_lt hpq hlt⟩
            · exact ⟨q, List.mem_append_left _ hqrest, hpq⟩
          · intro hmem
            rcases List.mem_append.mp hmem with hm1 | hm2
            · exact absurd hm1 hrest_root
            · have hpar0 : d.dropLast = [] := (List.mem_singleton.mp hm2).symm
              have hrest0 : rest = [] := by
                cases hrc : rest with
                | nil => rfl
                | cons e es =>
                  exfalso
                  refine hcond.2 ⟨e, by rw [hrc]; exact List.mem_cons_self e es, ?_⟩
                  rw [hpar0]
                  exact List.nil_prefix
              rw [hrest0, hpar0]
              rfl
          · rw [List.length_append]
            simp only [List.length_singleton, List.length_cons,
              List.length_nil] at hfuel ⊢
            omega
        · -- the parent is already covered by a queued entry
          rw [if_neg hcond]
          have hcov : ∃ e ∈ rest, d.dropLast <+: e := by
            by_cases hin : d.dropLast ∈ rest
            · exact ⟨d.dropLast, hin, List.prefix_refl _⟩
            · rcases not_and_or.mp hcond with h1 | h2
              · exact absurd hin (by simpa using h1)
              · simpa using not_not.mp h2
          have hrestne : rest ≠ [] := by
            obtain ⟨e, he, _⟩ := hcov
            intro h0
            rw [h0] at he
            simp at he
          refine hfinish rest hrestdirs2 hrestnodup hleafrest ?_ ?_ hrestne ?_
          · intro p hp hpne
            obtain ⟨hpd, hpned⟩ := (hdirs2mem p).mp hp
            obtain ⟨q, hqm, hpq⟩ := hP7 p hpd hpne
            rcases List.mem_cons.mp hqm with hqd | hqrest
            · rw [hqd] at hpq
              have hlt := length_lt_of_strict_prefix hpq hpned
              obtain ⟨e, he, hpare⟩ := hcov
              exact ⟨e, he, (prefix_dropLast_of_lt hpq hlt).trans hpare⟩
            · exact ⟨q, hqrest, hpq⟩
          · intro hmem
            exact absurd hmem hrest_root
          · simp only [List.length_cons] at hfuel
            omega

theorem leaf_of_no_children {dirs : List DirPath}
    (hpc : ∀ p ∈ dirs, p ≠ [] → p.dropLast ∈ dirs)
    {q : DirPath} (hch : childrenOf dirs q = []) :
    ∀ r ∈ dirs, q <+: r → q = r := by
  intro r hr hqr
  by_contra hne
  obtain ⟨c, hc1, hc2, hc3⟩ := next_step_child hqr hne
  have hmem : q ++ [c] ∈ dirs := mem_dirs_of_prefix hpc hr hc1
  have hcc : q ++ [c] ∈ childrenOf dirs q := childrenOf_mem.mpr ⟨hmem, hc3, hc2⟩
  rw [hch] at hcc
  simp at hcc

/-- C1: on every well-formed local tree, `_put_directory_recursive` issues
exactly one batched upload call per directory that holds at least one file
(and none for file-less directories), each batch carries exactly that
directory's direct files, and no batch for a directory precedes the batch
of one of its descendants (a parent is flushed only after its whole
subtree); in particular `push` on the tree with one root file and one file
in one nested subdirectory makes exactly two upload-batch calls, the nested
one first, each with only its own level's files. -/
theorem c1_push_batching (T : LocalTree) (hwf : T.WF) :
    (∀ p, ((put_directory_recursive T).map Batch.dir).count p =
      if p ∈ T.dirs ∧ filesAt T p ≠ [] then 1 else 0) ∧
    (∀ b ∈ put_directory_recursive T,
      b.dir ∈ T.dirs ∧ b.files = filesAt T b.dir) ∧
    (put_directory_recursive T).Pairwise
      (fun b1 b2 => ¬ b1.dir <+: b2.dir) ∧
    push (.ok []) "stage" "pkg" "1.0.0" (.dirPath exTree) =
      ([.listFiles "@stage/packages/pkg",
        .putBatch "@stage/packages/pkg/1.0.0/sub/" ["nested.txt"],
        .putBatch "@stage/packages/pkg/1.0.0/" ["root.txt"]], none) := by
  obtain ⟨hfddmem, hfddnd, hfddcov, hfddroot, hfddne⟩ :=
    find_deepest_directories_spec T hwf
  obtain ⟨hnd, hroot, hpc, _⟩ := hwf
  obtain ⟨hcnt, hmemb, hpair⟩ :=
    runPut_spec T (2 * T.dirs.length + (find_deepest_directories T).length + 1)
      T.dirs (find_deepest_directories T)
      hnd hpc hroot
      (fun q hq => (hfddmem q hq).1)
      hfddnd
      (fun q hq => leaf_of_no_children hpc (hfddmem q hq).2)
      (fun p hp _ => hfddcov p hp)
      hfddroot
      hfddne
      (Nat.le_succ _)
  exact ⟨hcnt, hmemb, hpair, by decide⟩

theorem c1_push_batching_witness :
    exTree.WF ∧
    push (.ok []) "stage" "pkg" "1.0.0" (.dirPath exTree) =
      ([.listFiles "@stage/packages/pkg",
        .putBatch "@stage/packages/pkg/1.0.0/sub/" ["nested.txt"],
        .putBatch "@stage/packages/pkg/1.0.0/" ["root.txt"]], none) :=
  ⟨by decide, (c1_push_batching exTree (by decide)).2.2.2⟩

end SnowPkg

